import Mathlib

/-!
# golru: the eviction engine of `internal/lru/lru.go`

The engine is a doubly linked list of heap-allocated items together with a
Go map from keys to item pointers.  Pointers are modelled as natural-number
addresses into an explicit heap; a nil pointer is `none`.  Every pointer
dereference of the source is a heap lookup that fails (`none`) on a nil or
unallocated address, so an operation that would panic in Go yields `none`.
-/

namespace lru

/-- Item of `lru.go`: `Key`, `Val` and the two links `next`, `prev`. -/
structure Item (K V : Type) where
  Key : K
  Val : V
  next : Option Nat
  prev : Option Nat
deriving DecidableEq

/-- Heap of items: address to allocated item. -/
abbrev Heap (K V : Type) := Nat → Option (Item K V)

/-- LRUCache of `lru.go`: `first`, `last`, the map `items` and `MaxEntries`.
The map is an association list with at most one entry per key; `heap` and
`fresh` (the next unused address) model the Go allocator. -/
structure LRUCache (K V : Type) where
  first : Option Nat
  last : Option Nat
  items : List (K × Nat)
  MaxEntries : Int
  heap : Heap K V
  fresh : Nat

section Defs

variable {K V : Type} [DecidableEq K]

/-- Store an item at an address. -/
def write (h : Heap K V) (p : Nat) (it : Item K V) : Heap K V :=
  fun q => if q = p then some it else h q

/-- Go map lookup `m[k]`. -/
def mapLookup : List (K × Nat) → K → Option Nat
  | [], _ => none
  | (a, p) :: t, k => if a = k then some p else mapLookup t k

/-- Go `delete(m, k)`. -/
def mapDelete (m : List (K × Nat)) (k : K) : List (K × Nat) :=
  m.filter (fun e => decide (e.1 ≠ k))

/-- Go map assignment `m[k] = p`. -/
def mapStore (m : List (K × Nat)) (k : K) (p : Nat) : List (K × Nat) :=
  (k, p) :: mapDelete m k

/-- The field read `p.Key`. -/
def keyOf (h : Heap K V) (p : Nat) : Option K := (h p).map Item.Key

/-- The assignment `p.next = v`. -/
def setNext (h : Heap K V) (p : Nat) (v : Option Nat) : Option (Heap K V) :=
  match h p with
  | none => none
  | some it => some (write h p { it with next := v })

/-- The assignment `p.prev = v`. -/
def setPrev (h : Heap K V) (p : Nat) (v : Option Nat) : Option (Heap K V) :=
  match h p with
  | none => none
  | some it => some (write h p { it with prev := v })

/-- The assignment `p.Val = v`. -/
def setVal (h : Heap K V) (p : Nat) (v : V) : Option (Heap K V) :=
  match h p with
  | none => none
  | some it => some (write h p { it with Val := v })

/-- The guarded assignment `if p != nil { p.next = v }`. -/
def setNextOpt (h : Heap K V) (p : Option Nat) (v : Option Nat) : Option (Heap K V) :=
  match p with
  | none => some h
  | some q => setNext h q v

/-- The guarded assignment `if p != nil { p.prev = v }`. -/
def setPrevOpt (h : Heap K V) (p : Option Nat) (v : Option Nat) : Option (Heap K V) :=
  match p with
  | none => some h
  | some q => setPrev h q v

/-- New of `lru.go`. -/
def New (maxEntries : Int) : LRUCache K V :=
  { first := none, last := none, items := [], MaxEntries := maxEntries,
    heap := fun _ => none, fresh := 0 }

/-- Contains of `lru.go`. -/
def Contains (cache : LRUCache K V) (key : K) : Bool :=
  (mapLookup cache.items key).isSome

/-- Len of `lru.go`. -/
def Len (cache : LRUCache K V) : Nat := cache.items.length

/-- The loop of `Keys`: `n` iterations of `keys[i] = item.Key; item = item.prev`. -/
def keysLoop (h : Heap K V) : Nat → Option Nat → Option (List K)
  | 0, _ => some []
  | n + 1, item => do
    let p ← item
    let it ← h p
    let rest ← keysLoop h n it.prev
    some (it.Key :: rest)

/-- The loop of `Values`: `n` iterations of `values[i] = item.Val; item = item.prev`. -/
def valuesLoop (h : Heap K V) : Nat → Option Nat → Option (List V)
  | 0, _ => some []
  | n + 1, item => do
    let p ← item
    let it ← h p
    let rest ← valuesLoop h n it.prev
    some (it.Val :: rest)

/-- Keys of `lru.go`. -/
def Keys (cache : LRUCache K V) : Option (List K) :=
  keysLoop cache.heap cache.items.length cache.last

/-- Values of `lru.go`. -/
def Values (cache : LRUCache K V) : Option (List V) :=
  valuesLoop cache.heap cache.items.length cache.last

/-- Peek of `lru.go`: the value (zero value on a miss) and the found flag. -/
def Peek [Inhabited V] (cache : LRUCache K V) (key : K) : Option (V × Bool) :=
  match mapLookup cache.items key with
  | none => some (default, false)
  | some item => do
    let it ← cache.heap item
    some (it.Val, true)

/-- The branch on `last` inside `moveToFront`: the new heap and the new `cache.last`. -/
def relinkLast (h : Heap K V) (last : Option Nat) (item : Nat) :
    Option (Heap K V × Option Nat) :=
  match last with
  | none => some (h, some item)
  | some l => do
    let lk ← keyOf h l
    let ik ← keyOf h item
    if lk = ik then do
      let li ← h l
      let h1 ← setNextOpt h li.prev none
      some (h1, li.prev)
    else
      some (h, some l)

/-- Method moveToFront of `lru.go`. -/
def moveToFront (cache : LRUCache K V) (item : Nat) : Option (LRUCache K V) := do
  let it ← cache.heap item
  let prev := it.prev
  let next := it.next
  let h1 ← setNextOpt cache.heap prev next
  let h2 ← setPrevOpt h1 next prev
  let first := cache.first
  let h3 ← setPrevOpt h2 first (some item)
  let r ← relinkLast h3 cache.last item
  let h5 ← setPrev r.1 item none
  let h6 ← setNext h5 item first
  let ik ← keyOf h6 item
  some { cache with heap := h6, last := r.2, first := some item,
                    items := mapStore cache.items ik item }

/-- The guarded update `if e != nil && e.Key == item.Key { field = repl }` of
`remove`, giving the new value of the field that held `e`. -/
def dropEnd (h : Heap K V) (e : Option Nat) (item : Nat) (repl : Option Nat) :
    Option (Option Nat) :=
  match e with
  | none => some none
  | some f => do
    let fk ← keyOf h f
    let ik ← keyOf h item
    some (if fk = ik then repl else some f)

/-- Method remove of `lru.go`. -/
def remove (cache : LRUCache K V) (item : Nat) : Option (LRUCache K V) := do
  let it ← cache.heap item
  let prev := it.prev
  let next := it.next
  let h1 ← setNextOpt cache.heap prev next
  let h2 ← setPrevOpt h1 next prev
  let i2 ← h2 item
  let first ← dropEnd h2 cache.first item i2.next
  let last ← dropEnd h2 cache.last item i2.prev
  some { cache with heap := h2, first := first, last := last,
                    items := mapDelete cache.items i2.Key }

/-- Get of `lru.go`: the new cache, the value (zero value on a miss) and the
found flag. -/
def Get [Inhabited V] (cache : LRUCache K V) (key : K) :
    Option (LRUCache K V × V × Bool) :=
  match mapLookup cache.items key with
  | none => some (cache, default, false)
  | some item => do
    let f ← cache.first
    let fk ← keyOf cache.heap f
    if fk = key then do
      let it ← cache.heap item
      some (cache, it.Val, true)
    else do
      let c ← moveToFront cache item
      let it ← c.heap item
      some (c, it.Val, true)

/-- The eviction step of `Put`: the cache after it and `evictedItem`. -/
def evict (cache : LRUCache K V) : Option (LRUCache K V × Option Nat) :=
  if 0 < cache.MaxEntries ∧ cache.MaxEntries ≤ (cache.items.length : Int) then
    match cache.last with
    | none => some (cache, none)
    | some last => do
      let c ← remove cache last
      some (c, some last)
  else
    some (cache, none)

/-- Put of `lru.go`: the new cache, the evicted flag and the evicted item. -/
def Put (cache : LRUCache K V) (key : K) (value : V) :
    Option (LRUCache K V × Bool × Option Nat) :=
  match mapLookup cache.items key with
  | some cachedItem => do
    let h ← setVal cache.heap cachedItem value
    some ({ cache with heap := h, items := mapStore cache.items key cachedItem },
          false, none)
  | none => do
    let r ← evict cache
    let c := r.1
    let item := c.fresh
    let c1 : LRUCache K V :=
      { c with heap := write c.heap item
                 { Key := key, Val := value, next := c.first, prev := none },
               fresh := c.fresh + 1 }
    let c2 ← moveToFront c1 item
    match r.2 with
    | some e => some (c2, true, some e)
    | none => some (c2, false, none)

/-- Remove of `lru.go`: the new cache, the removed flag and the removed item. -/
def Remove (cache : LRUCache K V) (key : K) :
    Option (LRUCache K V × Bool × Option Nat) :=
  match mapLookup cache.items key with
  | none => some (cache, false, none)
  | some item => do
    let c ← remove cache item
    some (c, true, some item)

end Defs

/-! ## Reachable states and the abstract view of the linked list -/

section Abstract

variable {K V : Type} [DecidableEq K] [Inhabited V]

/-- Engine states reachable from `New C` by `Put`, `Get` and `Remove`
(`Peek`, `Contains`, `Keys`, `Values` and `Len` do not return a new state). -/
inductive Reachable (C : Int) : LRUCache K V → Prop
  | init : Reachable C (New C)
  | put {s s1 : LRUCache K V} {r : Bool × Option Nat} (k : K) (v : V) :
      Reachable C s → Put s k v = some (s1, r) → Reachable C s1
  | get {s s1 : LRUCache K V} {r : V × Bool} (k : K) :
      Reachable C s → Get s k = some (s1, r) → Reachable C s1
  | remove {s s1 : LRUCache K V} {r : Bool × Option Nat} (k : K) :
      Reachable C s → Remove s k = some (s1, r) → Reachable C s1

/-- One list entry seen abstractly: its address, key and value. -/
structure Cell (K V : Type) where
  ptr : Nat
  key : K
  val : V

/-- Address of the first cell of a list, or `d` for the empty list. -/
def headPtr (es : List (Cell K V)) (d : Option Nat) : Option Nat :=
  match es with
  | [] => d
  | e :: _ => some e.ptr

/-- Address of the final cell of a list, or `d` for the empty list. -/
def lastPtr : List (Cell K V) → Option Nat → Option Nat
  | [], d => d
  | e :: es, _ => lastPtr es (some e.ptr)

/-- The heap holds the cells `es` as a doubly linked segment, listed from the
`last` end: each cell has `next` pointing to the cell before it (`o` for
the first one) and `prev` to the cell after it (`n` for the final one). -/
def Seg (h : Heap K V) : Option Nat → List (Cell K V) → Option Nat → Prop
  | _, [], _ => True
  | o, e :: es, n =>
    h e.ptr = some { Key := e.key, Val := e.val, next := o, prev := headPtr es n } ∧
      Seg h (some e.ptr) es n

/-- The cache `s` represents the cells `es`, listed oldest first. -/
structure Rep (s : LRUCache K V) (es : List (Cell K V)) : Prop where
  seg : Seg s.heap none es none
  last_eq : s.last = headPtr es none
  first_eq : s.first = lastPtr es none
  ptrs : (es.map Cell.ptr).Nodup
  keys : (es.map Cell.key).Nodup
  alloc : ∀ e ∈ es, e.ptr < s.fresh
  items : s.items.Perm (es.map fun e => (e.key, e.ptr))

end Abstract

end lru

/-! ## Call sequences -/

namespace lru

section Calls

variable {K V : Type} [DecidableEq K] [Inhabited V]

/-- One call on the engine. -/
inductive Op (K V : Type) where
  | put (k : K) (v : V)
  | get (k : K)
  | peek (k : K)
  | contains (k : K)
  | remove (k : K)

/-- Whether a call is a `Peek` or a `Contains`. -/
def Op.isQuery : Op K V → Bool
  | .peek _ => true
  | .contains _ => true
  | _ => false

/-- The engine state after one call, `none` when the call panics.  `Peek` and
`Contains` assign to nothing, so the state after them is the state before. -/
def applyOp (s : LRUCache K V) : Op K V → Option (LRUCache K V)
  | .put k v => (Put s k v).map Prod.fst
  | .get k => (Get s k).map Prod.fst
  | .peek k => (Peek s k).map fun _ => s
  | .contains k => (some (Contains s k)).map fun _ => s
  | .remove k => (Remove s k).map Prod.fst

/-- The states after every call of a sequence of calls. -/
def trace (s : LRUCache K V) : List (Op K V) → Option (List (LRUCache K V))
  | [] => some []
  | o :: os => do
    let s1 ← applyOp s o
    let rest ← trace s1 os
    some (s1 :: rest)

/-- The state after the final call of a sequence of calls. -/
def runOps (s : LRUCache K V) : List (Op K V) → Option (LRUCache K V)
  | [] => some s
  | o :: os => do
    let s1 ← applyOp s o
    runOps s1 os

/-- The loop `for ... { ok, _ := l.Put(k, v) }` of the tests: the final state
and the evicted flag of every `Put`. -/
def putAll (s : LRUCache K V) : List (K × V) → Option (LRUCache K V × List Bool)
  | [] => some (s, [])
  | (k, v) :: t => do
    let r ← Put s k v
    let r2 ← putAll r.1 t
    some (r2.1, r.2.1 :: r2.2)

/-- The state a call sequence leads to from `New C` (the state itself when a call
panics). -/
def stateAfter (C : Int) (ops : List (Op K V)) : LRUCache K V :=
  ((runOps (New C) ops).getD (New C))

/-- Capacity 2 holding keys 1 and 2, inserted in that order. -/
def exFull : LRUCache Nat Nat := stateAfter 2 [.put 1 10, .put 2 20]

/-- Capacity 3 holding keys 1, 2 and 3, inserted in that order. -/
def exThree : LRUCache Nat Nat := stateAfter 3 [.put 1 10, .put 2 20, .put 3 30]

/-- Capacity 0 (unlimited) holding keys 1 and 2. -/
def exFree : LRUCache Nat Nat := stateAfter 0 [.put 1 10, .put 2 20]

end Calls

end lru

/-! ## Link traversal, the list model and the façade -/

namespace lru

section Model

variable {K V : Type} [DecidableEq K] [Inhabited V]

/-- Capacity -1 (the engine takes any integer) holding keys 1, 2 and 3. -/
def exNeg : LRUCache Nat Nat := stateAfter (-1) [.put 1 10, .put 2 20, .put 3 30]

/-- Follow one link field from `p` until nil, visiting at most `n` entries: the
addresses visited, in order.  `none` when an address is not allocated or the chain
has more than `n` entries. -/
def chase (h : Heap K V) (link : Item K V → Option Nat) :
    Nat → Option Nat → Option (List Nat)
  | _, none => some []
  | 0, some _ => none
  | n + 1, some p => do
    let it ← h p
    let rest ← chase h link n (link it)
    some (p :: rest)

/-- The (key, value) pair of a cell. -/
def Cell.pair (c : Cell K V) : K × V := (c.key, c.val)

/-- State of the abstract cache of the list model: a capacity and the (key, value)
pairs, oldest first. -/
structure Model (K V : Type) where
  cap : Int
  entries : List (K × V)

/-- Model lookup of a key. -/
def Model.find (m : Model K V) (k : K) : Option V :=
  (m.entries.find? fun e => decide (e.1 = k)).map Prod.snd

/-- Model `New`: the empty list. -/
def Model.New (C : Int) : Model K V := { cap := C, entries := [] }

/-- Model `Put`: replace the value in place if the key is present, else drop the head
when capacity > 0 and length ≥ capacity, and append. -/
def Model.Put (m : Model K V) (k : K) (v : V) : Model K V × Bool × Option (K × V) :=
  if (m.find k).isSome then
    ({ m with entries := m.entries.map fun e => if e.1 = k then (k, v) else e }, false, none)
  else if 0 < m.cap ∧ m.cap ≤ (m.entries.length : Int) then
    ({ m with entries := m.entries.tail ++ [(k, v)] }, m.entries.head?.isSome,
      m.entries.head?)
  else
    ({ m with entries := m.entries ++ [(k, v)] }, false, none)

/-- Model `Get`: move the pair to the end on a hit. -/
def Model.Get (m : Model K V) (k : K) : Model K V × V × Bool :=
  match m.find k with
  | none => (m, default, false)
  | some v =>
    ({ m with entries := (m.entries.filter fun e => decide (e.1 ≠ k)) ++ [(k, v)] }, v, true)

/-- Model `Remove`: erase the pair. -/
def Model.Remove (m : Model K V) (k : K) : Model K V × Bool × Option (K × V) :=
  match m.find k with
  | none => (m, false, none)
  | some v =>
    ({ m with entries := m.entries.filter fun e => decide (e.1 ≠ k) }, true, some (k, v))

/-- Model `Peek`: lookup. -/
def Model.Peek (m : Model K V) (k : K) : V × Bool :=
  match m.find k with
  | none => (default, false)
  | some v => (v, true)

/-- Model `Contains`: lookup. -/
def Model.Contains (m : Model K V) (k : K) : Bool := (m.find k).isSome

/-- What one call returns: flags, values and entries as (key, value) pairs. -/
inductive Obs (K V : Type) where
  | put (evicted : Bool) (entry : Option (K × V))
  | get (val : V) (found : Bool)
  | peek (val : V) (found : Bool)
  | contains (found : Bool)
  | remove (removed : Bool) (entry : Option (K × V))

/-- The key and value read through a returned item pointer (`e.Key`, `e.Val`). -/
def entryOf (h : Heap K V) : Option Nat → Option (Option (K × V))
  | none => some none
  | some p => (h p).map fun it => some (it.Key, it.Val)

/-- One call on the engine: the new state and what the call returned. -/
def engineStep (s : LRUCache K V) : Op K V → Option (LRUCache K V × Obs K V)
  | .put k v => do
    let r ← Put s k v
    let ent ← entryOf r.1.heap r.2.2
    some (r.1, .put r.2.1 ent)
  | .get k => do
    let r ← Get s k
    some (r.1, .get r.2.1 r.2.2)
  | .peek k => do
    let r ← Peek s k
    some (s, .peek r.1 r.2)
  | .contains k => some (s, .contains (Contains s k))
  | .remove k => do
    let r ← Remove s k
    let ent ← entryOf r.1.heap r.2.2
    some (r.1, .remove r.2.1 ent)

/-- One call on the model: the new state and what the call returned. -/
def modelStep (m : Model K V) : Op K V → Model K V × Obs K V
  | .put k v => ((m.Put k v).1, .put (m.Put k v).2.1 (m.Put k v).2.2)
  | .get k => ((m.Get k).1, .get (m.Get k).2.1 (m.Get k).2.2)
  | .peek k => (m, .peek (m.Peek k).1 (m.Peek k).2)
  | .contains k => (m, .contains (m.Contains k))
  | .remove k => ((m.Remove k).1, .remove (m.Remove k).2.1 (m.Remove k).2.2)

/-- Run a call sequence on the engine: for every call what it returned, followed by
`Keys()`, `Values()` and `Len()` read right after it. -/
def engineRun (s : LRUCache K V) :
    List (Op K V) → Option (List (Obs K V × List K × List V × Nat))
  | [] => some []
  | o :: os => do
    let r ← engineStep s o
    let ks ← Keys r.1
    let vs ← Values r.1
    let rest ← engineRun r.1 os
    some ((r.2, ks, vs, Len r.1) :: rest)

/-- Run a call sequence on the model, with the same observations as `engineRun`. -/
def modelRun (m : Model K V) : List (Op K V) → List (Obs K V × List K × List V × Nat)
  | [] => []
  | o :: os =>
    ((modelStep m o).2, (modelStep m o).1.entries.map Prod.fst,
      (modelStep m o).1.entries.map Prod.snd, (modelStep m o).1.entries.length) ::
      modelRun (modelStep m o).1 os

/-- Link direction with respect to the recency order read from `Keys()` (oldest
first): for the entry of the key at index `i`, the link `newer`, when present, is
the entry of the key at index `i + 1`, and the link `older`, when present, is the
entry of the key at index `i - 1`. -/
def LinkDirection (s : LRUCache K V) (newer older : Item K V → Option Nat) : Prop :=
  ∀ (ks : List K) (i : Nat) (k : K) (p : Nat) (it : Item K V),
    Keys s = some ks → ks[i]? = some k → mapLookup s.items k = some p →
    s.heap p = some it →
    (∀ n, newer it = some n → (ks[i + 1]?).bind (mapLookup s.items) = some n) ∧
    (∀ n, older it = some n → 0 < i ∧ (ks[i - 1]?).bind (mapLookup s.items) = some n)

end Model

end lru

/-! ## The façade of `lru.go` -/

namespace golru

/-- Config of `lru.go`. -/
structure Config where
  MaxEntries : Int

/-- Option of `lru.go`: a function that updates the configuration. -/
abbrev ConfigOption := Config → Config

/-- WithMaxEntries of `lru.go`. -/
def WithMaxEntries (maxEntries : Int) : ConfigOption :=
  fun cfg => { cfg with MaxEntries := maxEntries }

/-- The loop `for _, option := range options { option(cfg) }` of `New`, started on
the default configuration. -/
def applyOptions (options : List ConfigOption) : Config :=
  options.foldl (fun cfg o => o cfg) { MaxEntries := 0 }

/-- LRUCache of `lru.go`, the façade: the engine and the callback slot.  A callback
maps the key and value it is called with to the event of type `E` it causes; the
lock is not part of the state. -/
structure LRUCache (K V E : Type) where
  lru : lru.LRUCache K V
  onEvicted : Option (K → V → E)

section Facade

variable {K V E : Type} [DecidableEq K] [Inhabited V]

/-- New of `lru.go`: an error for a negative `MaxEntries`, else a cache on a new
engine with no callback. -/
def New (options : List ConfigOption) : Except String (LRUCache K V E) :=
  let cfg := applyOptions options
  if cfg.MaxEntries < 0 then
    .error "max entries cannot be negative"
  else
    .ok { lru := lru.New cfg.MaxEntries, onEvicted := none }

/-- SetOnEvicted of `lru.go`. -/
def SetOnEvicted (cache : LRUCache K V E) (onEvicted : Option (K → V → E)) :
    LRUCache K V E :=
  { cache with onEvicted := onEvicted }

/-- Contains of `lru.go`. -/
def Contains (cache : LRUCache K V E) (key : K) : Bool := lru.Contains cache.lru key

/-- Get of `lru.go`. -/
def Get (cache : LRUCache K V E) (key : K) : Option (LRUCache K V E × V × Bool) :=
  (lru.Get cache.lru key).map fun r => ({ cache with lru := r.1 }, r.2)

/-- Keys of `lru.go`. -/
def Keys (cache : LRUCache K V E) : Option (List K) := lru.Keys cache.lru

/-- Len of `lru.go`. -/
def Len (cache : LRUCache K V E) : Nat := lru.Len cache.lru

/-- Peek of `lru.go`. -/
def Peek (cache : LRUCache K V E) (key : K) : Option (V × Bool) := lru.Peek cache.lru key

/-- Values of `lru.go`. -/
def Values (cache : LRUCache K V E) : Option (List V) := lru.Values cache.lru

/-- The step `if cache.onEvicted != nil && ok { cache.onEvicted(evicted.Key,
evicted.Val) }` of `Put` and `Remove`: the events of the callback invocations, in
order. -/
def notify (cache : LRUCache K V E) (h : lru.Heap K V) (ok : Bool)
    (evicted : Option Nat) : Option (List E) :=
  match cache.onEvicted with
  | none => some []
  | some f =>
    if ok then do
      let p ← evicted
      let it ← h p
      some [f it.Key it.Val]
    else
      some []

/-- Put of `lru.go`: the new cache and the events of the callback invocations. -/
def Put (cache : LRUCache K V E) (key : K) (val : V) :
    Option (LRUCache K V E × List E) := do
  let r ← lru.Put cache.lru key val
  let evs ← notify cache r.1.heap r.2.1 r.2.2
  some ({ cache with lru := r.1 }, evs)

/-- Remove of `lru.go`: the new cache and the events of the callback invocations. -/
def Remove (cache : LRUCache K V E) (key : K) :
    Option (LRUCache K V E × List E) := do
  let r ← lru.Remove cache.lru key
  let evs ← notify cache r.1.heap r.2.1 r.2.2
  some ({ cache with lru := r.1 }, evs)

/-- Façade states reachable from a successful `New` by `SetOnEvicted`, `Put`, `Get`
and `Remove` (the other calls return no new state). -/
inductive Reachable : LRUCache K V E → Prop
  | new (options : List ConfigOption) {c : LRUCache K V E} :
      New options = .ok c → Reachable c
  | setOnEvicted {c : LRUCache K V E} (f : Option (K → V → E)) :
      Reachable c → Reachable (SetOnEvicted c f)
  | put {c c1 : LRUCache K V E} {evs : List E} (k : K) (v : V) :
      Reachable c → Put c k v = some (c1, evs) → Reachable c1
  | get {c c1 : LRUCache K V E} {r : V × Bool} (k : K) :
      Reachable c → Get c k = some (c1, r) → Reachable c1
  | remove {c c1 : LRUCache K V E} {evs : List E} (k : K) :
      Reachable c → Remove c k = some (c1, evs) → Reachable c1

/-- The façade of capacity 2 holding keys 1 and 2, with a callback that reports the
pair it is called with. -/
def exCache : LRUCache Nat Nat (Nat × Nat) :=
  { lru := lru.exFull, onEvicted := some Prod.mk }

/-- The same cache with no callback registered. -/
def exQuiet : LRUCache Nat Nat (Nat × Nat) := { lru := lru.exFull, onEvicted := none }

end Facade

/-! ### Locking -/

/-- The two ways a façade method takes `cache.lock`: `RLock` (read) or `Lock` (write). -/
inductive LockMode where
  | read
  | write
deriving DecidableEq

/-- A call of one of the eight façade methods that take the lock. -/
inductive Call (K V : Type) where
  | contains (key : K)
  | get (key : K)
  | keys
  | len
  | peek (key : K)
  | put (key : K) (val : V)
  | remove (key : K)
  | values

/-- What the engine call made inside a critical section returns. -/
inductive Ret (K V : Type) where
  | contains (found : Bool)
  | get (val : V) (found : Bool)
  | keys (ks : List K)
  | len (n : Nat)
  | peek (val : V) (found : Bool)
  | put (evicted : Bool) (item : Option Nat)
  | remove (removed : Bool) (item : Option Nat)
  | values (vs : List V)

/-- A thread inside a critical section: its call and the engine state it found on
entry. -/
structure Holder (K V : Type) where
  thread : Nat
  call : Call K V
  entry : lru.LRUCache K V

/-- The engine shared by the threads, the threads inside a critical section, and the
calls that have left theirs, in that order, with what they returned. -/
structure System (K V : Type) where
  engine : lru.LRUCache K V
  inside : List (Holder K V)
  done : List (Call K V × Ret K V)

/-- A scheduling event: thread `t` takes the lock for a call, or thread `t` finishes
its engine call and releases the lock. -/
inductive Event (K V : Type) where
  | enter (t : Nat) (c : Call K V)
  | leave (t : Nat)

section Locking

variable {K V : Type} [DecidableEq K] [Inhabited V]

/-- The lock each façade method of `lru.go` takes around its engine call:
`cache.lock.Lock()` in `Get`, `Put` and `Remove`, `cache.lock.RLock()` in
`Contains`, `Keys`, `Len`, `Peek` and `Values`. -/
def Call.lock : Call K V → LockMode
  | .contains _ => .read
  | .get _ => .write
  | .keys => .read
  | .len => .read
  | .peek _ => .read
  | .put _ _ => .write
  | .remove _ => .write
  | .values => .read

/-- The engine call each façade method makes while it holds the lock: the engine
state after it and what it returned (`none` when it panics). -/
def Call.run (c : Call K V) (s : lru.LRUCache K V) : Option (lru.LRUCache K V × Ret K V) :=
  match c with
  | .contains k => some (s, .contains (lru.Contains s k))
  | .get k => (lru.Get s k).map fun r => (r.1, .get r.2.1 r.2.2)
  | .keys => (lru.Keys s).map fun ks => (s, .keys ks)
  | .len => some (s, .len (lru.Len s))
  | .peek k => (lru.Peek s k).map fun r => (s, .peek r.1 r.2)
  | .put k v => (lru.Put s k v).map fun r => (r.1, .put r.2.1 r.2.2)
  | .remove k => (lru.Remove s k).map fun r => (r.1, .remove r.2.1 r.2.2)
  | .values => (lru.Values s).map fun vs => (s, .values vs)

/-- Modelled from the spec: the reader/writer lock (`sync.RWMutex`), "concurrent reads
allowed, writes exclusive against everything".  A read lock is granted when every
thread inside holds a read lock, a write lock when no thread is inside. -/
def admits (inside : List (Holder K V)) : LockMode → Bool
  | .read => inside.all fun x => decide (x.call.lock = .read)
  | .write => inside.isEmpty

/-- One scheduling event; `none` when it cannot happen (the lock is not granted, the
thread is already inside or is not inside, or the engine call panics).  A thread
works on the engine state it finds on entry and its result is in memory when it
leaves. -/
def System.step (σ : System K V) : Event K V → Option (System K V)
  | .enter t c =>
    if (σ.inside.all fun x => decide (x.thread ≠ t)) = true ∧ admits σ.inside c.lock = true
    then some { σ with inside := { thread := t, call := c, entry := σ.engine } :: σ.inside }
    else none
  | .leave t =>
    match σ.inside.find? fun x => decide (x.thread = t) with
    | none => none
    | some x => do
      let r ← x.call.run x.entry
      some { engine := r.1,
             inside := σ.inside.filter fun y => decide (y.thread ≠ t),
             done := σ.done ++ [(x.call, r.2)] }

/-- A schedule of events, run from a system state. -/
def System.exec (σ : System K V) : List (Event K V) → Option (System K V)
  | [] => some σ
  | e :: es => do
    let σ1 ← σ.step e
    σ1.exec es

/-- The calls run one after the other on the engine: the final state and what each
call returned. -/
def sequential (s : lru.LRUCache K V) : List (Call K V) → Option (lru.LRUCache K V × List (Ret K V))
  | [] => some (s, [])
  | c :: cs => do
    let r ← c.run s
    let rest ← sequential r.1 cs
    some (rest.1, r.2 :: rest.2)

/-- The system with nobody inside and no call done. -/
def System.init (s : lru.LRUCache K V) : System K V := { engine := s, inside := [], done := [] }

/-- A schedule on the cache of capacity 2 holding keys 1 and 2: two readers overlap,
then a `Get` and a `Put` run one after the other while a third reader waits. -/
def exSchedule : List (Event Nat Nat) :=
  [.enter 1 (.peek 1), .enter 2 .keys, .leave 1, .enter 3 (.contains 2), .leave 2, .leave 3,
   .enter 1 (.get 1), .leave 1, .enter 2 (.put 3 30), .leave 2, .enter 3 .values, .leave 3]

/-- The system state the schedule `exSchedule` leads to. -/
def exSystem : System Nat Nat :=
  ((System.init lru.exFull).exec exSchedule).getD (System.init lru.exFull)

end Locking

end golru

/-! ## Lemmas on linked segments -/

namespace lru

set_option linter.unusedSectionVars false

section Lemmas

variable {K V : Type} [DecidableEq K]

theorem headPtr_append (l1 l2 : List (Cell K V)) (d : Option Nat) :
    headPtr (l1 ++ l2) d = headPtr l1 (headPtr l2 d) := by
  cases l1 <;> rfl

theorem lastPtr_append (l1 l2 : List (Cell K V)) (d : Option Nat) :
    lastPtr (l1 ++ l2) d = lastPtr l2 (lastPtr l1 d) := by
  induction l1 generalizing d with
  | nil => rfl
  | cons e l ih => simp [lastPtr, ih]

theorem lastPtr_concat (l : List (Cell K V)) (e : Cell K V) (d : Option Nat) :
    lastPtr (l ++ [e]) d = some e.ptr := by
  simp [lastPtr_append, lastPtr]

theorem lastPtr_of_ne_nil {l : List (Cell K V)} (hl : l ≠ []) (d d1 : Option Nat) :
    lastPtr l d = lastPtr l d1 := by
  cases l with
  | nil => exact absurd rfl hl
  | cons e l => rfl

theorem headPtr_of_ne_nil {l : List (Cell K V)} (hl : l ≠ []) (d d1 : Option Nat) :
    headPtr l d = headPtr l d1 := by
  cases l with
  | nil => exact absurd rfl hl
  | cons e l => rfl

theorem Seg_append (h : Heap K V) (l1 l2 : List (Cell K V)) (o n : Option Nat) :
    Seg h o (l1 ++ l2) n ↔ Seg h o l1 (headPtr l2 n) ∧ Seg h (lastPtr l1 o) l2 n := by
  induction l1 generalizing o with
  | nil => simp [Seg, lastPtr]
  | cons e l ih => simp [Seg, lastPtr, ih, headPtr_append, and_assoc]

theorem Seg_frame {h h1 : Heap K V} {l : List (Cell K V)} {o n : Option Nat}
    (hs : Seg h o l n) (hf : ∀ e ∈ l, h1 e.ptr = h e.ptr) : Seg h1 o l n := by
  induction l generalizing o with
  | nil => trivial
  | cons e l ih =>
    refine ⟨?_, ih hs.2 fun x hx => hf x (List.mem_cons_of_mem _ hx)⟩
    rw [hf e (List.mem_cons_self _ _)]; exact hs.1

theorem Seg_mem {h : Heap K V} {l : List (Cell K V)} {o n : Option Nat}
    (hs : Seg h o l n) {e : Cell K V} (he : e ∈ l) :
    ∃ it, h e.ptr = some it ∧ it.Key = e.key ∧ it.Val = e.val := by
  induction l generalizing o with
  | nil => cases he
  | cons a l ih =>
    rcases List.mem_cons.1 he with rfl | hm
    · exact ⟨_, hs.1, rfl, rfl⟩
    · exact ih hs.2 hm

theorem setNextOpt_head {h : Heap K V} {l : List (Cell K V)} {o n : Option Nat}
    (o1 : Option Nat) (hs : Seg h o l n) (nd : (l.map Cell.ptr).Nodup) :
    ∃ h1, setNextOpt h (headPtr l none) o1 = some h1 ∧ Seg h1 o1 l n ∧
      ∀ q, q ∉ l.map Cell.ptr → h1 q = h q := by
  cases l with
  | nil => exact ⟨h, rfl, trivial, fun _ _ => rfl⟩
  | cons e l =>
    obtain ⟨he, hl⟩ := hs
    have hnot : e.ptr ∉ l.map Cell.ptr := (List.nodup_cons.1 nd).1
    refine ⟨write h e.ptr { Key := e.key, Val := e.val, next := o1, prev := headPtr l n },
      by simp [setNextOpt, headPtr, setNext, he], ⟨by simp [write], ?_⟩, ?_⟩
    · refine Seg_frame hl fun x hx => ?_
      have : x.ptr ≠ e.ptr := fun hxe => hnot (hxe ▸ List.mem_map_of_mem _ hx)
      simp [write, this]
    · intro q hq
      have : q ≠ e.ptr := fun hqe => hq (by simp [hqe])
      simp [write, this]

theorem setPrevOpt_last {h : Heap K V} {l : List (Cell K V)} {o n : Option Nat}
    (n1 : Option Nat) (hs : Seg h o l n) (nd : (l.map Cell.ptr).Nodup) :
    ∃ h1, setPrevOpt h (lastPtr l none) n1 = some h1 ∧ Seg h1 o l n1 ∧
      ∀ q, q ∉ l.map Cell.ptr → h1 q = h q := by
  rcases l.eq_nil_or_concat with rfl | ⟨L, e, rfl⟩
  · exact ⟨h, rfl, trivial, fun _ _ => rfl⟩
  · rw [List.concat_eq_append] at hs nd ⊢
    rw [Seg_append] at hs
    obtain ⟨hL, he, -⟩ := hs
    have hnot : e.ptr ∉ L.map Cell.ptr := by
      intro hm
      rw [List.map_append, List.nodup_append] at nd
      exact nd.2.2 hm (by simp)
    refine ⟨write h e.ptr { Key := e.key, Val := e.val, next := lastPtr L o, prev := n1 },
      by simp [setPrevOpt, lastPtr_concat, setPrev, he, headPtr], ?_, ?_⟩
    · rw [Seg_append]
      refine ⟨Seg_frame hL fun x hx => ?_, by simp [write, headPtr], trivial⟩
      have : x.ptr ≠ e.ptr := fun hxe => hnot (hxe ▸ List.mem_map_of_mem _ hx)
      simp [write, this]
    · intro q hq
      have : q ≠ e.ptr := fun hqe => hq (by simp [hqe])
      simp [write, this]

theorem mapLookup_eq_none {m : List (K × Nat)} {k : K} :
    mapLookup m k = none ↔ k ∉ m.map Prod.fst := by
  induction m with
  | nil => simp [mapLookup]
  | cons a m ih =>
    obtain ⟨a, p⟩ := a
    by_cases hak : a = k
    · simp [mapLookup, hak]
    · simp [mapLookup, hak, ih, Ne.symm hak]

theorem mapLookup_of_mem {m : List (K × Nat)} {k : K} {p : Nat}
    (nd : (m.map Prod.fst).Nodup) (hm : (k, p) ∈ m) : mapLookup m k = some p := by
  induction m with
  | nil => cases hm
  | cons a m ih =>
    obtain ⟨a, q⟩ := a
    rw [List.map_cons, List.nodup_cons] at nd
    rcases List.mem_cons.1 hm with heq | hin
    · cases heq; simp [mapLookup]
    · have hak : a ≠ k := fun hak =>
        nd.1 (List.mem_map.2 ⟨(k, p), hin, hak.symm⟩)
      simp [mapLookup, hak, ih nd.2 hin]

theorem mapLookup_mem {m : List (K × Nat)} {k : K} {p : Nat}
    (hm : mapLookup m k = some p) : (k, p) ∈ m := by
  induction m with
  | nil => simp [mapLookup] at hm
  | cons a m ih =>
    obtain ⟨a, q⟩ := a
    by_cases hak : a = k
    · simp [mapLookup, hak] at hm; simp [hak, hm]
    · simp [mapLookup, hak] at hm; exact List.mem_cons_of_mem _ (ih hm)

theorem filter_key_ne (l1 l2 : List (Cell K V)) (e : Cell K V)
    (nd : ((l1 ++ e :: l2).map Cell.key).Nodup) :
    (l1 ++ e :: l2).filter (fun c => decide (c.key ≠ e.key)) = l1 ++ l2 := by
  rw [List.map_append, List.map_cons, List.nodup_append, List.nodup_cons] at nd
  obtain ⟨-, ⟨he2, -⟩, hdis⟩ := nd
  have h1 : l1.filter (fun c => decide (c.key ≠ e.key)) = l1 := by
    rw [List.filter_eq_self]
    intro c hc
    have : c.key ≠ e.key := fun hce =>
      hdis (List.mem_map_of_mem Cell.key hc) (by simp [hce])
    simpa using this
  have h2 : l2.filter (fun c => decide (c.key ≠ e.key)) = l2 := by
    rw [List.filter_eq_self]
    intro c hc
    have : c.key ≠ e.key := fun hce => he2 (hce ▸ List.mem_map_of_mem Cell.key hc)
    simpa using this
  rw [List.filter_append, List.filter_cons, h1, h2]
  simp

theorem mapDelete_perm {m : List (K × Nat)} {l1 l2 : List (Cell K V)} {e : Cell K V}
    (hp : m.Perm ((l1 ++ e :: l2).map fun c => (c.key, c.ptr)))
    (nd : ((l1 ++ e :: l2).map Cell.key).Nodup) :
    (mapDelete m e.key).Perm ((l1 ++ l2).map fun c => (c.key, c.ptr)) := by
  have h := hp.filter (fun x => decide (x.1 ≠ e.key))
  rw [List.filter_map] at h
  have hf : ((fun x : K × Nat => decide (x.1 ≠ e.key)) ∘ fun c : Cell K V => (c.key, c.ptr))
      = fun c => decide (c.key ≠ e.key) := rfl
  rw [hf, filter_key_ne l1 l2 e nd] at h
  exact h

theorem mapDelete_absent {m : List (K × Nat)} {k : K} (hk : k ∉ m.map Prod.fst) :
    mapDelete m k = m := by
  unfold mapDelete
  rw [List.filter_eq_self]
  intro a ha
  have : a.1 ≠ k := fun hak => hk (hak ▸ List.mem_map_of_mem Prod.fst ha)
  simpa using this

theorem keysLoop_seg {h : Heap K V} {l : List (Cell K V)} {o n : Option Nat}
    (hs : Seg h o l n) : keysLoop h l.length (headPtr l n) = some (l.map Cell.key) := by
  induction l generalizing o with
  | nil => rfl
  | cons e l ih =>
    have := ih hs.2
    show keysLoop h (l.length + 1) (some e.ptr) = _
    simp [keysLoop, hs.1, this]

theorem valuesLoop_seg {h : Heap K V} {l : List (Cell K V)} {o n : Option Nat}
    (hs : Seg h o l n) : valuesLoop h l.length (headPtr l n) = some (l.map Cell.val) := by
  induction l generalizing o with
  | nil => rfl
  | cons e l ih =>
    have := ih hs.2
    show valuesLoop h (l.length + 1) (some e.ptr) = _
    simp [valuesLoop, hs.1, this]

theorem unlink {h : Heap K V} {l1 l2 : List (Cell K V)} {x y : Option Nat}
    (hs1 : Seg h none l1 x) (hs2 : Seg h y l2 none)
    (nd : ((l1 ++ l2).map Cell.ptr).Nodup) :
    ∃ ha hb, setNextOpt h (headPtr l2 none) (lastPtr l1 none) = some ha ∧
      setPrevOpt ha (lastPtr l1 none) (headPtr l2 none) = some hb ∧
      Seg hb none (l1 ++ l2) none ∧
      ∀ q, q ∉ (l1 ++ l2).map Cell.ptr → hb q = h q := by
  rw [List.map_append, List.nodup_append] at nd
  obtain ⟨nd1, nd2, hdis⟩ := nd
  obtain ⟨ha, ea, sa, fa⟩ := setNextOpt_head (lastPtr l1 none) hs2 nd2
  have hs1a : Seg ha none l1 x :=
    Seg_frame hs1 fun c hc => fa _ fun hc2 => hdis (List.mem_map_of_mem Cell.ptr hc) hc2
  obtain ⟨hb, eb, sb, fb⟩ := setPrevOpt_last (headPtr l2 none) hs1a nd1
  refine ⟨ha, hb, ea, eb, ?_, ?_⟩
  · rw [Seg_append]
    refine ⟨sb, Seg_frame sa fun c hc => fb _ fun hc1 => ?_⟩
    exact hdis hc1 (List.mem_map_of_mem Cell.ptr hc)
  · intro q hq
    rw [List.map_append, List.mem_append, not_or] at hq
    rw [fb q hq.1, fa q hq.2]

theorem lastPtr_mem {l : List (Cell K V)} (hl : l ≠ []) (d : Option Nat) :
    ∃ c ∈ l, lastPtr l d = some c.ptr := by
  rcases l.eq_nil_or_concat with rfl | ⟨L, e, rfl⟩
  · exact absurd rfl hl
  · rw [List.concat_eq_append]
    exact ⟨e, by simp, lastPtr_concat L e d⟩

theorem keyOf_mem {h : Heap K V} {l : List (Cell K V)} {o n : Option Nat}
    (hs : Seg h o l n) {c : Cell K V} (hc : c ∈ l) : keyOf h c.ptr = some c.key := by
  obtain ⟨it, hit, hk, -⟩ := Seg_mem hs hc
  simp [keyOf, hit, hk]

theorem relinkLast_spec {h : Heap K V} {l1 l2 : List (Cell K V)} {n d : Option Nat}
    (p : Nat) (k : K) (v : V) (nx : Option Nat)
    (hs : Seg h none (l1 ++ l2) n)
    (hp : h p = some { Key := k, Val := v, next := nx, prev := headPtr l2 none })
    (nd : ((l1 ++ l2).map Cell.ptr).Nodup)
    (hpn : p ∉ (l1 ++ l2).map Cell.ptr)
    (hkn : k ∉ (l1 ++ l2).map Cell.key)
    (hd : (d = none ∧ l2 = []) ∨ (d = some p ∧ l2 ≠ [])) :
    ∃ h1, relinkLast h (headPtr l1 d) p = some (h1, headPtr (l1 ++ l2) (some p)) ∧
      Seg h1 none (l1 ++ l2) n ∧ h1 p = h p ∧
      ∀ q, q ∉ (l1 ++ l2).map Cell.ptr → h1 q = h q := by
  have hkp : keyOf h p = some k := by simp [keyOf, hp]
  cases l1 with
  | nil =>
    rcases hd with ⟨rfl, rfl⟩ | ⟨rfl, hl2⟩
    · exact ⟨h, rfl, hs, rfl, fun _ _ => rfl⟩
    · rw [List.nil_append] at hs nd hpn ⊢
      obtain ⟨h1, e1, s1, f1⟩ := setNextOpt_head none hs nd
      refine ⟨h1, ?_, s1, f1 p hpn, f1⟩
      cases l2 with
      | nil => exact absurd rfl hl2
      | cons b l2 =>
        simp only [headPtr] at e1 hp ⊢
        simp [relinkLast, hkp, hp, e1]
  | cons a l1 =>
    have hka : keyOf h a.ptr = some a.key := keyOf_mem hs (by simp)
    have hne : a.key ≠ k := fun hak => hkn (by simp [← hak])
    exact ⟨h, by simp [relinkLast, headPtr, hka, hkp, hne], hs, rfl, fun _ _ => rfl⟩

theorem moveToFront_spec {s : LRUCache K V} {l1 l2 : List (Cell K V)}
    {x y d : Option Nat} (p : Nat) (k : K) (v : V)
    (hs1 : Seg s.heap none l1 x) (hs2 : Seg s.heap y l2 none)
    (hp : s.heap p = some { Key := k, Val := v, next := lastPtr l1 none,
                            prev := headPtr l2 none })
    (nd : ((l1 ++ l2).map Cell.ptr).Nodup)
    (hpn : p ∉ (l1 ++ l2).map Cell.ptr)
    (hkn : k ∉ (l1 ++ l2).map Cell.key)
    (hfirst : s.first = lastPtr (l1 ++ l2) none)
    (hlast : s.last = headPtr l1 d)
    (hd : (d = none ∧ l2 = []) ∨ (d = some p ∧ l2 ≠ [])) :
    ∃ s1, moveToFront s p = some s1 ∧
      Seg s1.heap none (l1 ++ l2 ++ [{ ptr := p, key := k, val := v }]) none ∧
      s1.first = some p ∧ s1.last = headPtr (l1 ++ l2) (some p) ∧
      s1.items = mapStore s.items k p ∧ s1.MaxEntries = s.MaxEntries ∧
      s1.fresh = s.fresh ∧
      ∀ q, q ≠ p → q ∉ (l1 ++ l2).map Cell.ptr → s1.heap q = s.heap q := by
  obtain ⟨ha, hb, ea, eb, sb, fb⟩ := unlink hs1 hs2 nd
  obtain ⟨hc, ec, sc, fc⟩ := setPrevOpt_last (some p) sb nd
  have hpc : hc p = some { Key := k, Val := v, next := lastPtr l1 none,
                           prev := headPtr l2 none } := by
    rw [fc p hpn, fb p hpn]; exact hp
  obtain ⟨hd1, ed, sd, hpd, fd⟩ := relinkLast_spec p k v (lastPtr l1 none) sc hpc nd hpn hkn hd
  rw [hpc] at hpd
  let i5 : Item K V := { Key := k, Val := v, next := lastPtr l1 none, prev := none }
  let i6 : Item K V := { Key := k, Val := v, next := s.first, prev := none }
  let s1 : LRUCache K V :=
    { s with heap := write (write hd1 p i5) p i6, last := headPtr (l1 ++ l2) (some p),
             first := some p, items := mapStore s.items k p }
  refine ⟨s1, ?_, ?_, rfl, rfl, rfl, rfl, rfl, ?_⟩
  · rw [← hfirst] at ec
    simp [moveToFront, hp, ea, eb, ec, hlast, ed, setPrev, setNext, hpd, write, keyOf, s1, i5, i6]
  · rw [Seg_append]
    refine ⟨Seg_frame sd fun c hc => ?_, ?_, trivial⟩
    · have : c.ptr ≠ p := fun hcp => hpn (hcp ▸ List.mem_map_of_mem Cell.ptr hc)
      simp [s1, write, this]
    · simp [s1, i6, write, headPtr, hfirst]
  · intro q hq hqn
    simp only [s1, write, hq, if_false]
    rw [fd q hqn, fc q hqn, fb q hqn]

theorem headPtr_mem {l : List (Cell K V)} (hl : l ≠ []) (d : Option Nat) :
    ∃ c ∈ l, headPtr l d = some c.ptr := by
  cases l with
  | nil => exact absurd rfl hl
  | cons a l => exact ⟨a, by simp, rfl⟩

theorem nodup_mid {α : Type} (f : Cell K V → α) {l1 l2 : List (Cell K V)} {e : Cell K V}
    (nd : ((l1 ++ e :: l2).map f).Nodup) :
    ((l1 ++ l2).map f).Nodup ∧ f e ∉ (l1 ++ l2).map f := by
  rw [List.map_append, List.map_cons, List.nodup_middle, List.nodup_cons] at nd
  rw [List.map_append]
  exact ⟨nd.2, nd.1⟩

theorem dropEnd_self {h : Heap K V} {p : Nat} {it : Item K V} (repl : Option Nat)
    (hp : h p = some it) : dropEnd h (some p) p repl = some repl := by
  simp [dropEnd, keyOf, hp]

theorem dropEnd_other {h : Heap K V} {l : List (Cell K V)} {o n : Option Nat}
    (hs : Seg h o l n) {c : Cell K V} (hc : c ∈ l) {p : Nat} {it : Item K V}
    (repl : Option Nat) (hp : h p = some it) (hk : it.Key ∉ l.map Cell.key) :
    dropEnd h (some c.ptr) p repl = some (some c.ptr) := by
  have hne : c.key ≠ it.Key := fun hck => hk (hck ▸ List.mem_map_of_mem Cell.key hc)
  have hk1 := keyOf_mem hs hc
  have hk2 : keyOf h p = some it.Key := by simp [keyOf, hp]
  simp [dropEnd, hk1, hk2, hne]

theorem remove_spec {s : LRUCache K V} {l1 l2 : List (Cell K V)} {e : Cell K V}
    (hr : Rep s (l1 ++ e :: l2)) :
    ∃ s1, remove s e.ptr = some s1 ∧ Rep s1 (l1 ++ l2) ∧
      s1.MaxEntries = s.MaxEntries ∧ s1.fresh = s.fresh ∧
      ∀ q, q ∉ (l1 ++ l2).map Cell.ptr → s1.heap q = s.heap q := by
  have hseg := hr.seg
  rw [Seg_append] at hseg
  obtain ⟨hs1, he, hs2⟩ := hseg
  obtain ⟨nd, hpn⟩ := nodup_mid Cell.ptr hr.ptrs
  obtain ⟨ndk, hkn⟩ := nodup_mid Cell.key hr.keys
  obtain ⟨ha, hb, ea, eb, sb, fb⟩ := unlink hs1 hs2 nd
  have hpb : hb e.ptr = some { Key := e.key, Val := e.val, next := lastPtr l1 none,
                               prev := headPtr l2 none } := by
    rw [fb _ hpn]; exact he
  have hfirst : dropEnd hb s.first e.ptr (lastPtr l1 none) = some (lastPtr (l1 ++ l2) none) := by
    rw [hr.first_eq, lastPtr_append]
    by_cases hl2 : l2 = []
    · subst hl2
      simpa [lastPtr] using dropEnd_self (lastPtr l1 none) hpb
    · obtain ⟨c, hc, hcl⟩ := lastPtr_mem hl2 (some e.ptr)
      have h1 : lastPtr (e :: l2) (lastPtr l1 none) = some c.ptr := hcl
      have h2 : lastPtr (l1 ++ l2) none = some c.ptr := by
        rw [lastPtr_append, lastPtr_of_ne_nil hl2 _ (some e.ptr)]; exact hcl
      rw [h1, h2]
      exact dropEnd_other sb (List.mem_append_right _ hc) _ hpb hkn
  have hlast : dropEnd hb s.last e.ptr (headPtr l2 none) = some (headPtr (l1 ++ l2) none) := by
    rw [hr.last_eq, headPtr_append, headPtr_append]
    by_cases hl1 : l1 = []
    · subst hl1
      exact dropEnd_self (headPtr l2 none) hpb
    · obtain ⟨c, hc, hcl⟩ := headPtr_mem hl1 (headPtr (e :: l2) none)
      rw [hcl, headPtr_of_ne_nil hl1 _ (headPtr (e :: l2) none), hcl]
      exact dropEnd_other sb (List.mem_append_left _ hc) _ hpb hkn
  let s1 : LRUCache K V :=
    { s with heap := hb, first := lastPtr (l1 ++ l2) none, last := headPtr (l1 ++ l2) none,
             items := mapDelete s.items e.key }
  refine ⟨s1, ?_, ?_, rfl, rfl, fb⟩
  · simp [remove, he, ea, eb, hpb, hfirst, hlast, s1]
  · exact
      { seg := sb
        last_eq := rfl
        first_eq := rfl
        ptrs := nd
        keys := ndk
        alloc := fun c hc => hr.alloc c (by
          rcases List.mem_append.1 hc with h | h
          · exact List.mem_append_left _ h
          · exact List.mem_append_right _ (List.mem_cons_of_mem _ h))
        items := mapDelete_perm hr.items hr.keys }

theorem Rep.len {s : LRUCache K V} {es : List (Cell K V)} (hr : Rep s es) :
    Len s = es.length := by
  unfold Len
  rw [hr.items.length_eq, List.length_map]

theorem Rep.keys_eq {s : LRUCache K V} {es : List (Cell K V)} (hr : Rep s es) :
    Keys s = some (es.map Cell.key) := by
  have hl : s.items.length = es.length := hr.len
  unfold Keys
  rw [hl, hr.last_eq]
  exact keysLoop_seg hr.seg

theorem Rep.values_eq {s : LRUCache K V} {es : List (Cell K V)} (hr : Rep s es) :
    Values s = some (es.map Cell.val) := by
  have hl : s.items.length = es.length := hr.len
  unfold Values
  rw [hl, hr.last_eq]
  exact valuesLoop_seg hr.seg

theorem Rep.items_keys {s : LRUCache K V} {es : List (Cell K V)} (hr : Rep s es) :
    (s.items.map Prod.fst).Perm (es.map Cell.key) := by
  have h := hr.items.map Prod.fst
  rw [List.map_map] at h
  exact h

theorem Rep.lookup_mem {s : LRUCache K V} {es : List (Cell K V)} (hr : Rep s es)
    {c : Cell K V} (hc : c ∈ es) : mapLookup s.items c.key = some c.ptr := by
  refine mapLookup_of_mem (hr.items_keys.nodup_iff.2 hr.keys) ?_
  rw [hr.items.mem_iff]
  exact List.mem_map.2 ⟨c, hc, rfl⟩

theorem Rep.lookup_none {s : LRUCache K V} {es : List (Cell K V)} (hr : Rep s es)
    {k : K} (hk : k ∉ es.map Cell.key) : mapLookup s.items k = none := by
  rw [mapLookup_eq_none, hr.items_keys.mem_iff]
  exact hk

theorem Rep.contains_iff {s : LRUCache K V} {es : List (Cell K V)} (hr : Rep s es)
    (k : K) : Contains s k = true ↔ k ∈ es.map Cell.key := by
  unfold Contains
  by_cases hk : k ∈ es.map Cell.key
  · obtain ⟨c, hc, rfl⟩ := List.mem_map.1 hk
    simp [hr.lookup_mem hc, hk]
  · simp [hr.lookup_none hk, hk]

theorem Rep.peek_mem [Inhabited V] {s : LRUCache K V} {es : List (Cell K V)}
    (hr : Rep s es) {c : Cell K V} (hc : c ∈ es) : Peek s c.key = some (c.val, true) := by
  obtain ⟨it, hit, -, hv⟩ := Seg_mem hr.seg hc
  simp [Peek, hr.lookup_mem hc, hit, hv]

theorem Rep.peek_none [Inhabited V] {s : LRUCache K V} {es : List (Cell K V)}
    (hr : Rep s es) {k : K} (hk : k ∉ es.map Cell.key) :
    Peek s k = some (default, false) := by
  simp [Peek, hr.lookup_none hk]

theorem Rep_New (C : Int) : Rep (New C : LRUCache K V) [] :=
  { seg := trivial
    last_eq := rfl
    first_eq := rfl
    ptrs := List.nodup_nil
    keys := List.nodup_nil
    alloc := fun _ h => nomatch h
    items := List.Perm.refl _ }

theorem perm_move (l1 l2 : List (Cell K V)) (e : Cell K V) :
    (l1 ++ l2 ++ [e]).Perm (l1 ++ e :: l2) :=
  (List.perm_append_singleton e (l1 ++ l2)).trans List.perm_middle.symm

theorem mapStore_perm {m : List (K × Nat)} {l1 l2 : List (Cell K V)} {e : Cell K V}
    (hp : m.Perm ((l1 ++ e :: l2).map fun c => (c.key, c.ptr)))
    (nd : ((l1 ++ e :: l2).map Cell.key).Nodup) :
    (mapStore m e.key e.ptr).Perm ((e :: (l1 ++ l2)).map fun c => (c.key, c.ptr)) :=
  List.Perm.cons _ (mapDelete_perm hp nd)

/-- Linking a freshly allocated item for an absent key at the front. -/
theorem insert_spec {c : LRUCache K V} {es : List (Cell K V)} (hr : Rep c es)
    (k : K) (v : V) (hk : k ∉ es.map Cell.key) :
    ∃ s1, moveToFront
        { c with heap := write c.heap c.fresh
                   { Key := k, Val := v, next := c.first, prev := none },
                 fresh := c.fresh + 1 } c.fresh = some s1 ∧
      Rep s1 (es ++ [{ ptr := c.fresh, key := k, val := v }]) ∧
      s1.MaxEntries = c.MaxEntries ∧
      ∀ q, q < c.fresh → q ∉ es.map Cell.ptr → s1.heap q = c.heap q := by
  have hpn : c.fresh ∉ es.map Cell.ptr := by
    intro hm
    obtain ⟨x, hx, hxe⟩ := List.mem_map.1 hm
    have := hr.alloc x hx
    omega
  let c1 : LRUCache K V :=
    { c with heap := write c.heap c.fresh
               { Key := k, Val := v, next := c.first, prev := none },
             fresh := c.fresh + 1 }
  have hs1 : Seg c1.heap none es none := by
    refine Seg_frame hr.seg fun x hx => ?_
    have : x.ptr ≠ c.fresh := fun hxe => hpn (hxe ▸ List.mem_map_of_mem Cell.ptr hx)
    simp [c1, write, this]
  have hs2 : Seg c1.heap none ([] : List (Cell K V)) none := trivial
  have hp : c1.heap c.fresh = some { Key := k, Val := v, next := lastPtr es none,
                                     prev := headPtr ([] : List (Cell K V)) none } := by
    simp [c1, write, hr.first_eq, headPtr]
  obtain ⟨s1, e1, sg, hf, hl, hi, hm, hfr, hfrm⟩ :=
    @moveToFront_spec K V _ c1 es [] none none none c.fresh k v hs1 hs2 hp
      (by simpa using hr.ptrs) (by simpa using hpn) (by simpa using hk)
      (by simpa [c1] using hr.first_eq) hr.last_eq (Or.inl ⟨rfl, rfl⟩)
  rw [List.append_nil] at sg hl hfrm
  refine ⟨s1, e1, ?_, hm, ?_⟩
  · exact
      { seg := sg
        last_eq := by rw [hl, headPtr_append]; rfl
        first_eq := by rw [hf, lastPtr_concat]
        ptrs := by
          rw [List.map_append, List.nodup_append]
          refine ⟨hr.ptrs, by simp, ?_⟩
          intro a ha hb
          simp at hb
          exact hpn (hb ▸ ha)
        keys := by
          rw [List.map_append, List.nodup_append]
          refine ⟨hr.keys, by simp, ?_⟩
          intro a ha hb
          simp at hb
          exact hk (hb ▸ ha)
        alloc := by
          intro x hx
          rw [hfr]
          rcases List.mem_append.1 hx with h | h
          · have := hr.alloc x h
            show x.ptr < c.fresh + 1
            omega
          · simp at h
            subst h
            show c.fresh < c.fresh + 1
            omega
        items := by
          rw [hi]
          show (mapStore c.items k c.fresh).Perm _
          unfold mapStore
          rw [mapDelete_absent (fun hm => hk (hr.items_keys.mem_iff.1 hm)), List.map_append]
          exact (List.Perm.cons _ hr.items).trans (List.perm_append_singleton _ _).symm }
  · intro q hq hqn
    have hne : q ≠ c.fresh := by omega
    rw [hfrm q hne hqn]
    simp [c1, write, hne]

theorem Put_hit_spec {s : LRUCache K V} {l1 l2 : List (Cell K V)} {e : Cell K V}
    (hr : Rep s (l1 ++ e :: l2)) (v : V) :
    ∃ s1, Put s e.key v = some (s1, false, none) ∧
      Rep s1 (l1 ++ { ptr := e.ptr, key := e.key, val := v } :: l2) ∧
      s1.MaxEntries = s.MaxEntries := by
  have hseg := hr.seg
  rw [Seg_append] at hseg
  obtain ⟨hs1, he, hs2⟩ := hseg
  have hpt := hr.ptrs
  rw [List.map_append, List.map_cons, List.nodup_middle, List.nodup_cons,
    List.mem_append, not_or] at hpt
  let it : Item K V :=
    { Key := e.key, Val := v, next := lastPtr l1 none, prev := headPtr l2 none }
  let s1 : LRUCache K V :=
    { s with heap := write s.heap e.ptr it, items := mapStore s.items e.key e.ptr }
  refine ⟨s1, ?_, ?_, rfl⟩
  · have hl := hr.lookup_mem (c := e) (by simp)
    simp [Put, hl, setVal, he, s1, it]
  · exact
      { seg := by
          rw [Seg_append]
          refine ⟨Seg_frame hs1 fun x hx => ?_, by simp [s1, it, write],
            Seg_frame hs2 fun x hx => ?_⟩
          · have : x.ptr ≠ e.ptr :=
              fun hxe => hpt.1.1 (hxe ▸ List.mem_map_of_mem Cell.ptr hx)
            simp [s1, write, this]
          · have : x.ptr ≠ e.ptr :=
              fun hxe => hpt.1.2 (hxe ▸ List.mem_map_of_mem Cell.ptr hx)
            simp [s1, write, this]
        last_eq := by rw [headPtr_append]; exact hr.last_eq.trans (headPtr_append _ _ _)
        first_eq := by rw [lastPtr_append]; exact hr.first_eq.trans (lastPtr_append _ _ _)
        ptrs := by simpa using hr.ptrs
        keys := by simpa using hr.keys
        alloc := by
          intro x hx
          rcases List.mem_append.1 hx with h | h
          · exact hr.alloc x (List.mem_append_left _ h)
          · rcases List.mem_cons.1 h with h | h
            · subst h
              exact hr.alloc e (by simp)
            · exact hr.alloc x (List.mem_append_right _ (List.mem_cons_of_mem _ h))
        items := by
          refine (mapStore_perm hr.items hr.keys).trans ?_
          rw [List.map_append, List.map_cons, List.map_cons, List.map_append]
          exact List.perm_middle.symm }

theorem evict_skip {s : LRUCache K V}
    (hc : ¬(0 < s.MaxEntries ∧ s.MaxEntries ≤ (s.items.length : Int))) :
    evict s = some (s, none) := by
  simp only [evict, hc, if_false]

theorem Put_grow_spec {s : LRUCache K V} {es : List (Cell K V)} (hr : Rep s es)
    (k : K) (v : V) (hk : k ∉ es.map Cell.key)
    (hc : ¬(0 < s.MaxEntries ∧ s.MaxEntries ≤ (es.length : Int))) :
    ∃ s1, Put s k v = some (s1, false, none) ∧
      Rep s1 (es ++ [{ ptr := s.fresh, key := k, val := v }]) ∧
      s1.MaxEntries = s.MaxEntries := by
  have hlen : s.items.length = es.length := hr.len
  obtain ⟨s1, e1, r1, m1, -⟩ := insert_spec hr k v hk
  refine ⟨s1, ?_, r1, m1⟩
  have hev := evict_skip (s := s) (by rw [hlen]; exact hc)
  simp [Put, hr.lookup_none hk, hev, e1]

theorem Put_evict_spec {s : LRUCache K V} {es : List (Cell K V)} {e : Cell K V}
    (hr : Rep s (e :: es)) (k : K) (v : V) (hk : k ∉ (e :: es).map Cell.key)
    (hc : 0 < s.MaxEntries ∧ s.MaxEntries ≤ ((e :: es).length : Int)) :
    ∃ s1, Put s k v = some (s1, true, some e.ptr) ∧
      Rep s1 (es ++ [{ ptr := s.fresh, key := k, val := v }]) ∧
      s1.MaxEntries = s.MaxEntries ∧
      ∃ it, s1.heap e.ptr = some it ∧ it.Key = e.key ∧ it.Val = e.val := by
  have hlen : s.items.length = (e :: es).length := hr.len
  obtain ⟨c, ec, rc, mc, fc, hfc⟩ := @remove_spec K V _ s [] es e hr
  rw [List.nil_append] at rc hfc
  have hk1 : k ∉ es.map Cell.key := fun hm => hk (by simp at hm ⊢; exact Or.inr hm)
  obtain ⟨s1, e1, r1, m1, f1⟩ := insert_spec rc k v hk1
  have hpn : e.ptr ∉ es.map Cell.ptr := (List.nodup_cons.1 hr.ptrs).1
  have hev : evict s = some (c, some e.ptr) := by
    have hl : s.last = some e.ptr := hr.last_eq
    have hc1 : 0 < s.MaxEntries ∧ s.MaxEntries ≤ (s.items.length : Int) := by
      rw [hlen]; exact hc
    simp only [evict, hc1, if_true, hl]
    simp [ec]
  rw [fc] at e1 r1
  refine ⟨s1, ?_, r1, m1.trans mc, ?_⟩
  · simp [Put, hr.lookup_none hk, hev, fc, e1]
  · have ha : e.ptr < c.fresh := by rw [fc]; exact hr.alloc e (by simp)
    rw [f1 _ ha hpn, hfc _ hpn]
    exact ⟨_, hr.seg.1, rfl, rfl⟩

theorem Get_miss_spec [Inhabited V] {s : LRUCache K V} {es : List (Cell K V)}
    (hr : Rep s es) {k : K} (hk : k ∉ es.map Cell.key) :
    Get s k = some (s, default, false) := by
  simp [Get, hr.lookup_none hk]

theorem Get_hit_spec [Inhabited V] {s : LRUCache K V} {l1 l2 : List (Cell K V)}
    {e : Cell K V} (hr : Rep s (l1 ++ e :: l2)) :
    ∃ s1, Get s e.key = some (s1, e.val, true) ∧ Rep s1 (l1 ++ l2 ++ [e]) ∧
      s1.MaxEntries = s.MaxEntries := by
  have hl := hr.lookup_mem (c := e) (by simp)
  have hseg := hr.seg
  rw [Seg_append] at hseg
  obtain ⟨hs1, he, hs2⟩ := hseg
  by_cases hl2 : l2 = []
  · subst hl2
    refine ⟨s, ?_, by simpa using hr, rfl⟩
    have hf : s.first = some e.ptr := by rw [hr.first_eq, lastPtr_concat]
    simp [Get, hl, hf, keyOf, he]
  · obtain ⟨nd, hpn⟩ := nodup_mid Cell.ptr hr.ptrs
    obtain ⟨ndk, hkn⟩ := nodup_mid Cell.key hr.keys
    obtain ⟨c, hc, hcl⟩ := lastPtr_mem hl2 (some e.ptr)
    have hfirst : s.first = some c.ptr := by
      rw [hr.first_eq, lastPtr_append]; exact hcl
    have hfirst2 : s.first = lastPtr (l1 ++ l2) none := by
      rw [hfirst, lastPtr_append, lastPtr_of_ne_nil hl2 _ (some e.ptr)]; exact hcl.symm
    have hlast : s.last = headPtr l1 (some e.ptr) := by
      rw [hr.last_eq, headPtr_append]; rfl
    have hkc : keyOf s.heap c.ptr = some c.key :=
      keyOf_mem hr.seg (List.mem_append_right _ (List.mem_cons_of_mem _ hc))
    have hne : c.key ≠ e.key :=
      fun hce => hkn (hce ▸ List.mem_map_of_mem Cell.key (List.mem_append_right _ hc))
    obtain ⟨s1, e1, sg, hf1, hl1, hi, hm, hfr, -⟩ :=
      moveToFront_spec (d := some e.ptr) e.ptr e.key e.val hs1 hs2 he nd hpn hkn hfirst2
        hlast (Or.inr ⟨rfl, hl2⟩)
    have hit : s1.heap e.ptr =
        some { Key := e.key, Val := e.val, next := lastPtr (l1 ++ l2) none, prev := none } := by
      rw [Seg_append] at sg
      exact sg.2.1
    refine ⟨s1, ?_, ?_, hm⟩
    · simp [Get, hl, hfirst, hkc, hne, e1, hit]
    · exact
        { seg := sg
          last_eq := by rw [hl1]; simp only [headPtr_append]; rfl
          first_eq := by rw [hf1, lastPtr_concat]
          ptrs := ((perm_move l1 l2 e).map Cell.ptr).nodup_iff.2 hr.ptrs
          keys := ((perm_move l1 l2 e).map Cell.key).nodup_iff.2 hr.keys
          alloc := fun x hx => by
            rw [hfr]; exact hr.alloc x ((perm_move l1 l2 e).mem_iff.1 hx)
          items := by
            rw [hi]
            refine (mapStore_perm hr.items hr.keys).trans ?_
            exact ((List.perm_append_singleton e (l1 ++ l2)).map _).symm }

theorem Remove_miss_spec {s : LRUCache K V} {es : List (Cell K V)}
    (hr : Rep s es) {k : K} (hk : k ∉ es.map Cell.key) :
    Remove s k = some (s, false, none) := by
  simp [Remove, hr.lookup_none hk]

theorem Remove_hit_spec {s : LRUCache K V} {l1 l2 : List (Cell K V)} {e : Cell K V}
    (hr : Rep s (l1 ++ e :: l2)) :
    ∃ s1, Remove s e.key = some (s1, true, some e.ptr) ∧ Rep s1 (l1 ++ l2) ∧
      s1.MaxEntries = s.MaxEntries ∧
      ∃ it, s1.heap e.ptr = some it ∧ it.Key = e.key ∧ it.Val = e.val := by
  have hl := hr.lookup_mem (c := e) (by simp)
  obtain ⟨s1, e1, r1, m1, -, hf⟩ := remove_spec hr
  obtain ⟨-, hpn⟩ := nodup_mid Cell.ptr hr.ptrs
  refine ⟨s1, by simp [Remove, hl, e1], r1, m1, ?_⟩
  rw [hf _ hpn]
  exact Seg_mem hr.seg (by simp)

theorem split_of_key {es : List (Cell K V)} {k : K} (hk : k ∈ es.map Cell.key) :
    ∃ l1 e l2, es = l1 ++ e :: l2 ∧ e.key = k := by
  obtain ⟨e, he, rfl⟩ := List.mem_map.1 hk
  obtain ⟨l1, l2, rfl⟩ := List.append_of_mem he
  exact ⟨l1, e, l2, rfl, rfl⟩

theorem Rep.split_of_contains {s : LRUCache K V} {es : List (Cell K V)} (hr : Rep s es)
    {k : K} (hk : Contains s k = true) : ∃ l1 e l2, es = l1 ++ e :: l2 ∧ e.key = k :=
  split_of_key ((hr.contains_iff k).1 hk)

theorem Rep.not_mem_of_contains {s : LRUCache K V} {es : List (Cell K V)} (hr : Rep s es)
    {k : K} (hk : Contains s k = false) : k ∉ es.map Cell.key := by
  intro hm
  rw [(hr.contains_iff k).2 hm] at hk
  cases hk

theorem Rep.split_of_peek [Inhabited V] {s : LRUCache K V} {es : List (Cell K V)}
    (hr : Rep s es) {k : K} {v : V} (hp : Peek s k = some (v, true)) :
    ∃ l1 e l2, es = l1 ++ e :: l2 ∧ e.key = k ∧ e.val = v := by
  by_cases hk : k ∈ es.map Cell.key
  · obtain ⟨l1, e, l2, rfl, rfl⟩ := split_of_key hk
    have := hr.peek_mem (c := e) (by simp)
    rw [hp] at this
    simp at this
    exact ⟨l1, e, l2, rfl, rfl, this.symm⟩
  · rw [hr.peek_none hk] at hp
    simp at hp

/-- Every reachable state represents a list of cells, keeps the capacity it was
created with, and respects a positive capacity. -/
theorem reach_rep [Inhabited V] {C : Int} {s : LRUCache K V} (h : Reachable C s) :
    ∃ es, Rep s es ∧ s.MaxEntries = C ∧ (0 < C → (es.length : Int) ≤ C) := by
  induction h with
  | init => exact ⟨[], Rep_New C, rfl, fun h => by simpa using h.le⟩
  | @put s s1 r k v _ hput ih =>
    obtain ⟨es, hr, hm, hcap⟩ := ih
    by_cases hk : k ∈ es.map Cell.key
    · obtain ⟨l1, e, l2, rfl, rfl⟩ := split_of_key hk
      obtain ⟨t, e1, r1, m1⟩ := Put_hit_spec hr v
      rw [e1] at hput
      cases hput
      exact ⟨_, r1, m1.trans hm, fun h => by simpa using hcap h⟩
    · by_cases hc : 0 < s.MaxEntries ∧ s.MaxEntries ≤ (es.length : Int)
      · cases es with
        | nil =>
          simp at hc
          omega
        | cons e es =>
          obtain ⟨t, e1, r1, m1, -⟩ := Put_evict_spec hr k v hk hc
          rw [e1] at hput
          cases hput
          exact ⟨_, r1, m1.trans hm, fun h => by simpa using hcap h⟩
      · obtain ⟨t, e1, r1, m1⟩ := Put_grow_spec hr k v hk hc
        rw [e1] at hput
        cases hput
        refine ⟨_, r1, m1.trans hm, fun h => ?_⟩
        have := hcap h
        rw [hm] at hc
        simp at hc ⊢
        have := hc h
        omega
  | @get s s1 r k _ hget ih =>
    obtain ⟨es, hr, hm, hcap⟩ := ih
    by_cases hk : k ∈ es.map Cell.key
    · obtain ⟨l1, e, l2, rfl, rfl⟩ := split_of_key hk
      obtain ⟨t, e1, r1, m1⟩ := Get_hit_spec hr
      rw [e1] at hget
      cases hget
      refine ⟨_, r1, m1.trans hm, fun h => ?_⟩
      have := hcap h
      simp at this ⊢
      omega
    · rw [Get_miss_spec hr hk] at hget
      cases hget
      exact ⟨es, hr, hm, hcap⟩
  | @remove s s1 r k _ hrem ih =>
    obtain ⟨es, hr, hm, hcap⟩ := ih
    by_cases hk : k ∈ es.map Cell.key
    · obtain ⟨l1, e, l2, rfl, rfl⟩ := split_of_key hk
      obtain ⟨t, e1, r1, m1, -⟩ := Remove_hit_spec hr
      rw [e1] at hrem
      cases hrem
      refine ⟨_, r1, m1.trans hm, fun h => ?_⟩
      have := hcap h
      simp at this ⊢
      omega
    · rw [Remove_miss_spec hr hk] at hrem
      cases hrem
      exact ⟨es, hr, hm, hcap⟩

theorem applyOp_reachable [Inhabited V] {C : Int} {s s1 : LRUCache K V}
    (h : Reachable C s) (o : Op K V) (ho : applyOp s o = some s1) : Reachable C s1 := by
  cases o with
  | put k v =>
    simp only [applyOp, Option.map_eq_some'] at ho
    obtain ⟨⟨t, r⟩, hp, rfl⟩ := ho
    exact Reachable.put k v h hp
  | get k =>
    simp only [applyOp, Option.map_eq_some'] at ho
    obtain ⟨⟨t, r⟩, hp, rfl⟩ := ho
    exact Reachable.get k h hp
  | peek k =>
    simp only [applyOp, Option.map_eq_some'] at ho
    obtain ⟨_, -, rfl⟩ := ho
    exact h
  | contains k =>
    simp only [applyOp, Option.map_some', Option.some.injEq] at ho
    exact ho ▸ h
  | remove k =>
    simp only [applyOp, Option.map_eq_some'] at ho
    obtain ⟨⟨t, r⟩, hp, rfl⟩ := ho
    exact Reachable.remove k h hp

theorem runOps_reachable [Inhabited V] {C : Int} {s s1 : LRUCache K V}
    (h : Reachable C s) (ops : List (Op K V)) (ho : runOps s ops = some s1) :
    Reachable C s1 := by
  induction ops generalizing s with
  | nil =>
    simp only [runOps, Option.some.injEq] at ho
    exact ho ▸ h
  | cons o os ih =>
    simp only [runOps, Option.bind_eq_bind, Option.bind_eq_some] at ho
    obtain ⟨t, ht, hrest⟩ := ho
    exact ih (applyOp_reachable h o ht) hrest

theorem stateAfter_reachable [Inhabited V] (C : Int) (ops : List (Op K V))
    (h : (runOps (New C : LRUCache K V) ops).isSome = true) :
    Reachable C (stateAfter C ops) := by
  obtain ⟨t, ht⟩ := Option.isSome_iff_exists.1 h
  have : stateAfter C ops = t := by simp [stateAfter, ht]
  rw [this]
  exact runOps_reachable Reachable.init ops ht

theorem exFull_reachable : Reachable 2 exFull := stateAfter_reachable 2 _ (by decide)

theorem exThree_reachable : Reachable 3 exThree := stateAfter_reachable 3 _ (by decide)

theorem exFree_reachable : Reachable 0 exFree := stateAfter_reachable 0 _ (by decide)

theorem exNeg_reachable : Reachable (-1) exNeg := stateAfter_reachable (-1) _ (by decide)

theorem Put_total {s : LRUCache K V} {es : List (Cell K V)} (hr : Rep s es) (k : K) (v : V) :
    ∃ r, Put s k v = some r := by
  by_cases hk : k ∈ es.map Cell.key
  · obtain ⟨l1, e, l2, rfl, rfl⟩ := split_of_key hk
    obtain ⟨t, e1, -⟩ := Put_hit_spec hr v
    exact ⟨_, e1⟩
  · by_cases hc : 0 < s.MaxEntries ∧ s.MaxEntries ≤ (es.length : Int)
    · cases es with
      | nil =>
        simp at hc
        omega
      | cons e es =>
        obtain ⟨t, e1, -⟩ := Put_evict_spec hr k v hk hc
        exact ⟨_, e1⟩
    · obtain ⟨t, e1, -⟩ := Put_grow_spec hr k v hk hc
      exact ⟨_, e1⟩

theorem Get_total [Inhabited V] {s : LRUCache K V} {es : List (Cell K V)} (hr : Rep s es) (k : K) :
    ∃ r, Get s k = some r := by
  by_cases hk : k ∈ es.map Cell.key
  · obtain ⟨l1, e, l2, rfl, rfl⟩ := split_of_key hk
    obtain ⟨t, e1, -⟩ := Get_hit_spec hr
    exact ⟨_, e1⟩
  · exact ⟨_, Get_miss_spec hr hk⟩

theorem Remove_total {s : LRUCache K V} {es : List (Cell K V)} (hr : Rep s es) (k : K) :
    ∃ r, Remove s k = some r := by
  by_cases hk : k ∈ es.map Cell.key
  · obtain ⟨l1, e, l2, rfl, rfl⟩ := split_of_key hk
    obtain ⟨t, e1, -⟩ := Remove_hit_spec hr
    exact ⟨_, e1⟩
  · exact ⟨_, Remove_miss_spec hr hk⟩

theorem Peek_total [Inhabited V] {s : LRUCache K V} {es : List (Cell K V)} (hr : Rep s es) (k : K) :
    ∃ r, Peek s k = some r := by
  by_cases hk : k ∈ es.map Cell.key
  · obtain ⟨l1, e, l2, rfl, rfl⟩ := split_of_key hk
    exact ⟨_, hr.peek_mem (c := e) (by simp)⟩
  · exact ⟨_, hr.peek_none hk⟩

theorem applyOp_total [Inhabited V] {C : Int} {s : LRUCache K V} (h : Reachable C s) (o : Op K V) :
    ∃ s1, applyOp s o = some s1 := by
  obtain ⟨es, hr, -⟩ := reach_rep h
  cases o with
  | put k v =>
    obtain ⟨r, hp⟩ := Put_total hr k v
    exact ⟨r.1, by simp [applyOp, hp]⟩
  | get k =>
    obtain ⟨r, hp⟩ := Get_total hr k
    exact ⟨r.1, by simp [applyOp, hp]⟩
  | peek k =>
    obtain ⟨r, hp⟩ := Peek_total hr k
    exact ⟨s, by simp [applyOp, hp]⟩
  | contains k => exact ⟨s, rfl⟩
  | remove k =>
    obtain ⟨r, hp⟩ := Remove_total hr k
    exact ⟨r.1, by simp [applyOp, hp]⟩

theorem trace_reachable [Inhabited V] {C : Int} {s : LRUCache K V} (h : Reachable C s)
    (ops : List (Op K V)) :
    ∃ ss, trace s ops = some ss ∧ ss.length = ops.length ∧ ∀ t ∈ ss, Reachable C t := by
  induction ops generalizing s with
  | nil => exact ⟨[], rfl, rfl, fun _ ht => nomatch ht⟩
  | cons o os ih =>
    obtain ⟨s1, h1⟩ := applyOp_total h o
    obtain ⟨ss, hss, hl, hall⟩ := ih (applyOp_reachable h o h1)
    refine ⟨s1 :: ss, by simp [trace, h1, hss], by simp [hl], ?_⟩
    intro t ht
    rcases List.mem_cons.1 ht with rfl | ht
    · exact applyOp_reachable h o h1
    · exact hall t ht

theorem map_getElem?_mid {α : Type} (f : Cell K V → α) (l1 l2 : List (Cell K V))
    (e : Cell K V) : ((l1 ++ e :: l2).map f)[l1.length]? = some (f e) := by
  induction l1 with
  | nil => simp
  | cons b l ih => simpa using ih

theorem map_eraseIdx_mid {α : Type} (f : Cell K V → α) (l1 l2 : List (Cell K V))
    (e : Cell K V) : ((l1 ++ e :: l2).map f).eraseIdx l1.length = (l1 ++ l2).map f := by
  induction l1 with
  | nil => rfl
  | cons b l ih => simpa [List.eraseIdx] using ih

theorem map_set_mid {α : Type} (f : Cell K V → α) (l1 l2 : List (Cell K V))
    (e : Cell K V) (b : α) :
    ((l1 ++ e :: l2).map f).set l1.length b = l1.map f ++ b :: l2.map f := by
  induction l1 with
  | nil => rfl
  | cons c l ih => simp [List.set]

/-- Effect of a run of `Put` calls with fresh, pairwise distinct keys on a cache
of positive capacity `C`. -/
theorem putAll_spec (C : Nat) (hC : 0 < C) (kvs : List (K × V)) :
    ∀ (s : LRUCache K V) (es : List (Cell K V)), Rep s es → s.MaxEntries = (C : Int) →
      es.length ≤ C → (es.map Cell.key ++ kvs.map Prod.fst).Nodup →
      ∃ s1 es1 fl, putAll s kvs = some (s1, fl) ∧ Rep s1 es1 ∧
        es1.map (fun c => (c.key, c.val)) =
          (es.map (fun c => (c.key, c.val)) ++ kvs).drop (es.length + kvs.length - C) ∧
        fl = List.replicate (min (C - es.length) kvs.length) false ++
              List.replicate (kvs.length - (C - es.length)) true := by
  induction kvs with
  | nil =>
    intro s es hr _ hlen _
    refine ⟨s, es, [], rfl, hr, ?_, ?_⟩
    · have : es.length + ([] : List (K × V)).length - C = 0 := by simp; omega
      rw [this]; simp
    · simp
  | cons kv rest ih =>
    obtain ⟨k, v⟩ := kv
    intro s es hr hm hlen hnd
    have hk : k ∉ es.map Cell.key := by
      intro hmem
      rw [List.nodup_append] at hnd
      exact hnd.2.2 hmem (by simp)
    by_cases hlt : es.length < C
    · have hc : ¬(0 < s.MaxEntries ∧ s.MaxEntries ≤ (es.length : Int)) := by
        rw [hm]; intro h; omega
      obtain ⟨t, e1, r1, m1⟩ := Put_grow_spec hr k v hk hc
      obtain ⟨s1, es1, fl, e2, r2, hp, hf⟩ :=
        ih t _ r1 (m1.trans hm) (by simp; omega) (by simpa using hnd)
      refine ⟨s1, es1, false :: fl, by simp [putAll, e1, e2], r2, ?_, ?_⟩
      · rw [hp]
        have : (es ++ [({ ptr := s.fresh, key := k, val := v } : Cell K V)]).length
            + rest.length - C = es.length + ((k, v) :: rest).length - C := by
          simp; omega
        rw [this]
        simp
      · rw [hf]
        have h1 : min (C - es.length) ((k, v) :: rest).length
            = min (C - (es ++ [({ ptr := s.fresh, key := k, val := v } : Cell K V)]).length)
                rest.length + 1 := by
          simp; omega
        have h2 : ((k, v) :: rest).length - (C - es.length)
            = rest.length
              - (C - (es ++ [({ ptr := s.fresh, key := k, val := v } : Cell K V)]).length) := by
          simp; omega
        rw [h1, h2, List.replicate_succ]
        rfl
    · have hfull : es.length = C := by omega
      cases es with
      | nil => simp at hfull; omega
      | cons e tl =>
        have hc : 0 < s.MaxEntries ∧ s.MaxEntries ≤ ((e :: tl).length : Int) := by
          rw [hm, hfull]; exact ⟨by exact_mod_cast hC, le_refl _⟩
        obtain ⟨t, e1, r1, m1, -⟩ := Put_evict_spec hr k v hk hc
        have hnd1 : ((tl ++ [({ ptr := s.fresh, key := k, val := v } : Cell K V)]).map Cell.key
            ++ rest.map Prod.fst).Nodup := by
          have : (tl.map Cell.key ++ (k :: rest.map Prod.fst)).Nodup := by
            simp only [List.map_cons, List.cons_append, List.nodup_cons] at hnd
            exact hnd.2
          simpa using this
        have hlen1 : (tl ++ [({ ptr := s.fresh, key := k, val := v } : Cell K V)]).length
            = C := by
          simp at hfull ⊢; omega
        obtain ⟨s1, es1, fl, e2, r2, hp, hf⟩ :=
          ih t _ r1 (m1.trans hm) (le_of_eq hlen1) hnd1
        refine ⟨s1, es1, true :: fl, by simp [putAll, e1, e2], r2, ?_, ?_⟩
        · rw [hp, hlen1, hfull]
          have h1 : C + rest.length - C = rest.length := by omega
          have h2 : C + ((k, v) :: rest).length - C = rest.length + 1 := by simp
          rw [h1, h2]
          simp
        · rw [hf, hlen1, hfull]
          simp [List.replicate_succ]

theorem applyOp_query [Inhabited V] {C : Int} {s : LRUCache K V} (h : Reachable C s)
    {o : Op K V} (ho : o.isQuery = true) : applyOp s o = some s := by
  obtain ⟨es, hr, -⟩ := reach_rep h
  cases o with
  | peek k =>
    obtain ⟨r, hp⟩ := Peek_total hr k
    simp [applyOp, hp]
  | contains k => rfl
  | put k v => cases ho
  | get k => cases ho
  | remove k => cases ho

theorem runOps_query [Inhabited V] {C : Int} {s : LRUCache K V} (h : Reachable C s)
    (ops : List (Op K V)) (hq : ∀ o ∈ ops, o.isQuery = true) : runOps s ops = some s := by
  induction ops with
  | nil => rfl
  | cons o os ih =>
    have h1 := applyOp_query h (hq o (by simp))
    have h2 := ih fun x hx => hq x (List.mem_cons_of_mem _ hx)
    simp [runOps, h1, h2]

theorem gets_spec [Inhabited V] {s : LRUCache K V} {es : List (Cell K V)} (hr : Rep s es)
    (gs : List K) :
    ∃ s1 es1, runOps s (gs.map fun g => (Op.get g : Op K V)) = some s1 ∧ Rep s1 es1 ∧
      es1.Perm es := by
  induction gs generalizing s es with
  | nil => exact ⟨s, es, rfl, hr, List.Perm.refl _⟩
  | cons g gs ih =>
    by_cases hk : g ∈ es.map Cell.key
    · obtain ⟨l1, e, l2, rfl, rfl⟩ := split_of_key hk
      obtain ⟨t, e1, r1, -⟩ := Get_hit_spec hr
      obtain ⟨s1, es1, e2, r2, hp⟩ := ih r1
      exact ⟨s1, es1, by simp [runOps, applyOp, e1, e2], r2, hp.trans (perm_move l1 l2 e)⟩
    · obtain ⟨s1, es1, e2, r2, hp⟩ := ih hr
      exact ⟨s1, es1, by simp [runOps, applyOp, Get_miss_spec hr hk, e2], r2, hp⟩

theorem Rep.present [Inhabited V] {s : LRUCache K V} {es : List (Cell K V)} (hr : Rep s es)
    {c : Cell K V} (hc : c ∈ es) :
    Contains s c.key = true ∧ Peek s c.key = some (c.val, true) ∧
      ∃ s2, Get s c.key = some (s2, c.val, true) := by
  refine ⟨(hr.contains_iff _).2 (List.mem_map_of_mem Cell.key hc), hr.peek_mem hc, ?_⟩
  obtain ⟨l1, l2, rfl⟩ := List.append_of_mem hc
  obtain ⟨s2, e2, -⟩ := Get_hit_spec hr
  exact ⟨s2, e2⟩

theorem chase_prev_seg {h : Heap K V} {l : List (Cell K V)} {o : Option Nat}
    (hs : Seg h o l none) :
    chase h Item.prev l.length (headPtr l none) = some (l.map Cell.ptr) := by
  induction l generalizing o with
  | nil => rfl
  | cons e l ih =>
    have := ih hs.2
    show chase h Item.prev (l.length + 1) (some e.ptr) = _
    simp [chase, hs.1, this]

theorem chase_next_seg {h : Heap K V} {l : List (Cell K V)} {n : Option Nat}
    (hs : Seg h none l n) :
    chase h Item.next l.length (lastPtr l none) = some (l.map Cell.ptr).reverse := by
  induction l using List.reverseRecOn generalizing n with
  | nil => rfl
  | append_singleton l e ih =>
    rw [Seg_append] at hs
    have := ih hs.1
    have he := hs.2.1
    rw [lastPtr_concat, List.length_append]
    show chase h Item.next (l.length + 1) (some e.ptr) = _
    simp [chase, he, this]

theorem lastPtr_eq_some {l : List (Cell K V)} {q : Nat} (h : lastPtr l none = some q) :
    ∃ l1 c, l = l1 ++ [c] ∧ c.ptr = q := by
  rcases l.eq_nil_or_concat with rfl | ⟨L, e, rfl⟩
  · cases h
  · rw [List.concat_eq_append] at h ⊢
    rw [lastPtr_concat] at h
    exact ⟨L, e, rfl, Option.some.inj h⟩

theorem headPtr_eq_some {l : List (Cell K V)} {q : Nat} (h : headPtr l none = some q) :
    ∃ c l2, l = c :: l2 ∧ c.ptr = q := by
  cases l with
  | nil => cases h
  | cons c l2 => exact ⟨c, l2, rfl, Option.some.inj h⟩

theorem Rep.item_mid {s : LRUCache K V} {l1 l2 : List (Cell K V)} {e : Cell K V}
    (hr : Rep s (l1 ++ e :: l2)) :
    s.heap e.ptr = some { Key := e.key, Val := e.val, next := lastPtr l1 none,
                          prev := headPtr l2 none } := by
  have hseg := hr.seg
  rw [Seg_append] at hseg
  exact hseg.2.1

/-- Heap contents of the cell at index `i` of a segment. -/
theorem Seg_index {h : Heap K V} {l : List (Cell K V)} {o n : Option Nat}
    (hs : Seg h o l n) {i : Nat} {c : Cell K V} (hc : l[i]? = some c) :
    h c.ptr = some { Key := c.key, Val := c.val,
                     next := if i = 0 then o else (l[i - 1]?).map Cell.ptr,
                     prev := ((l[i + 1]?).map Cell.ptr).or n } := by
  induction l generalizing o i with
  | nil => simp at hc
  | cons e l ih =>
    cases i with
    | zero =>
      simp only [List.getElem?_cons_zero, Option.some.injEq] at hc
      subst hc
      rw [hs.1]
      cases l <;> simp [headPtr]
    | succ j =>
      simp only [List.getElem?_cons_succ] at hc
      rw [ih hs.2 hc]
      cases j <;> simp

theorem headPtr_eq_head? (l : List (Cell K V)) : headPtr l none = (l.map Cell.ptr).head? := by
  cases l <;> rfl

theorem lastPtr_eq_getLast? (l : List (Cell K V)) :
    lastPtr l none = (l.map Cell.ptr).getLast? := by
  rcases l.eq_nil_or_concat with rfl | ⟨L, e, rfl⟩
  · rfl
  · rw [List.concat_eq_append, lastPtr_concat]
    simp

theorem Rep.links {s : LRUCache K V} {es : List (Cell K V)} (hr : Rep s es)
    {e : Nat} (he : e ∈ es.map Cell.ptr) :
    ∃ it, s.heap e = some it ∧
      (∀ n, it.next = some n → n ∈ es.map Cell.ptr ∧
        ∃ jt, s.heap n = some jt ∧ jt.prev = some e) ∧
      (∀ p, it.prev = some p → p ∈ es.map Cell.ptr ∧
        ∃ jt, s.heap p = some jt ∧ jt.next = some e) := by
  obtain ⟨c, hc, rfl⟩ := List.mem_map.1 he
  obtain ⟨l1, l2, rfl⟩ := List.append_of_mem hc
  refine ⟨_, hr.item_mid, ?_, ?_⟩
  · intro n hn
    obtain ⟨l0, d, rfl, rfl⟩ := lastPtr_eq_some hn
    have hr1 : Rep s (l0 ++ d :: (c :: l2)) := by simpa using hr
    exact ⟨by simp, _, hr1.item_mid, rfl⟩
  · intro p hp
    obtain ⟨d, l3, rfl, rfl⟩ := headPtr_eq_some hp
    have hr1 : Rep s ((l1 ++ [c]) ++ d :: l3) := by simpa using hr
    exact ⟨by simp, _, hr1.item_mid, by rw [lastPtr_concat]⟩

theorem Rep.lookup_iff {s : LRUCache K V} {es : List (Cell K V)} (hr : Rep s es)
    (k : K) (p : Nat) :
    mapLookup s.items k = some p ↔ p ∈ es.map Cell.ptr ∧ keyOf s.heap p = some k := by
  constructor
  · intro h
    have hm := (hr.items.mem_iff).1 (mapLookup_mem h)
    obtain ⟨c, hc, hce⟩ := List.mem_map.1 hm
    simp only [Prod.mk.injEq] at hce
    obtain ⟨rfl, rfl⟩ := hce
    exact ⟨List.mem_map_of_mem Cell.ptr hc, keyOf_mem hr.seg hc⟩
  · rintro ⟨hp, hk⟩
    obtain ⟨c, hc, rfl⟩ := List.mem_map.1 hp
    rw [keyOf_mem hr.seg hc] at hk
    cases hk
    exact hr.lookup_mem hc

theorem find?_pair_mid (l1 l2 : List (Cell K V)) (e : Cell K V)
    (nd : ((l1 ++ e :: l2).map Cell.key).Nodup) :
    ((l1 ++ e :: l2).map Cell.pair).find? (fun x => decide (x.1 = e.key))
      = some (e.key, e.val) := by
  rw [List.map_append, List.map_cons, List.nodup_append] at nd
  rw [List.map_append, List.find?_append]
  have h1 : (l1.map Cell.pair).find? (fun x => decide (x.1 = e.key)) = none := by
    rw [List.find?_eq_none]
    intro x hx
    obtain ⟨c, hc, rfl⟩ := List.mem_map.1 hx
    have : c.key ≠ e.key := fun h => nd.2.2 (List.mem_map_of_mem Cell.key hc) (by simp [h])
    simpa [Cell.pair] using this
  rw [h1]
  simp [Cell.pair]

theorem find?_pair_none (es : List (Cell K V)) {k : K} (hk : k ∉ es.map Cell.key) :
    (es.map Cell.pair).find? (fun x => decide (x.1 = k)) = none := by
  rw [List.find?_eq_none]
  intro x hx
  obtain ⟨c, hc, rfl⟩ := List.mem_map.1 hx
  have : c.key ≠ k := fun h => hk (h ▸ List.mem_map_of_mem Cell.key hc)
  simpa [Cell.pair] using this

theorem Model.find_mid (C : Int) (l1 l2 : List (Cell K V)) (e : Cell K V)
    (nd : ((l1 ++ e :: l2).map Cell.key).Nodup) :
    Model.find { cap := C, entries := (l1 ++ e :: l2).map Cell.pair } e.key = some e.val := by
  simp only [Model.find, find?_pair_mid l1 l2 e nd, Option.map_some']

theorem Model.find_none (C : Int) (es : List (Cell K V)) {k : K}
    (hk : k ∉ es.map Cell.key) :
    Model.find { cap := C, entries := es.map Cell.pair } k = none := by
  simp only [Model.find, find?_pair_none es hk, Option.map_none']

theorem replace_pair_mid (l1 l2 : List (Cell K V)) (e : Cell K V) (v : V)
    (nd : ((l1 ++ e :: l2).map Cell.key).Nodup) :
    ((l1 ++ e :: l2).map Cell.pair).map (fun x => if x.1 = e.key then (e.key, v) else x)
      = (l1 ++ { ptr := e.ptr, key := e.key, val := v } :: l2).map Cell.pair := by
  rw [List.map_append, List.map_cons, List.nodup_append, List.nodup_cons] at nd
  have keep : ∀ l : List (Cell K V), (∀ c ∈ l, c.key ≠ e.key) →
      (l.map Cell.pair).map (fun x => if x.1 = e.key then (e.key, v) else x)
        = l.map Cell.pair := by
    intro l hl
    rw [List.map_map]
    refine List.map_congr_left fun c hc => ?_
    simp [Cell.pair, hl c hc]
  have h1 := keep l1 fun c hc h =>
    nd.2.2 (List.mem_map_of_mem Cell.key hc) (by simp [h])
  have h2 := keep l2 fun c hc h => nd.2.1.1 (h ▸ List.mem_map_of_mem Cell.key hc)
  simp only [List.map_append, List.map_cons, h1, h2]
  simp [Cell.pair]

theorem filter_pair_mid (l1 l2 : List (Cell K V)) (e : Cell K V)
    (nd : ((l1 ++ e :: l2).map Cell.key).Nodup) :
    ((l1 ++ e :: l2).map Cell.pair).filter (fun x => decide (x.1 ≠ e.key))
      = (l1 ++ l2).map Cell.pair := by
  rw [List.filter_map]
  have hf : ((fun x : K × V => decide (x.1 ≠ e.key)) ∘ Cell.pair)
      = fun c : Cell K V => decide (c.key ≠ e.key) := rfl
  rw [hf, filter_key_ne l1 l2 e nd]

theorem Model.Put_hit (C : Int) (l1 l2 : List (Cell K V)) (e : Cell K V) (v : V)
    (nd : ((l1 ++ e :: l2).map Cell.key).Nodup) :
    Model.Put { cap := C, entries := (l1 ++ e :: l2).map Cell.pair } e.key v
      = ({ cap := C, entries :=
            (l1 ++ { ptr := e.ptr, key := e.key, val := v } :: l2).map Cell.pair },
          false, none) := by
  simp only [Model.Put, Model.find_mid C l1 l2 e nd, Option.isSome_some, if_true,
    replace_pair_mid l1 l2 e v nd]

theorem Model.Put_evict (C : Int) (c : Cell K V) (tl : List (Cell K V)) (k : K) (v : V)
    (p : Nat) (hk : k ∉ (c :: tl).map Cell.key)
    (hc : 0 < C ∧ C ≤ ((c :: tl).length : Int)) :
    Model.Put { cap := C, entries := (c :: tl).map Cell.pair } k v
      = ({ cap := C, entries := (tl ++ [({ ptr := p, key := k, val := v } : Cell K V)]).map Cell.pair },
          true, some (c.key, c.val)) := by
  have hc1 : 0 < C ∧ C ≤ (((c :: tl).map Cell.pair).length : Int) := by
    rw [List.length_map]; exact hc
  simp only [Model.Put, Model.find_none C (c :: tl) hk, Option.isSome_none, hc1]
  simp [Cell.pair]

theorem Model.Put_grow (C : Int) (es : List (Cell K V)) (k : K) (v : V) (p : Nat)
    (hk : k ∉ es.map Cell.key) (hc : ¬(0 < C ∧ C ≤ (es.length : Int))) :
    Model.Put { cap := C, entries := es.map Cell.pair } k v
      = ({ cap := C, entries := (es ++ [({ ptr := p, key := k, val := v } : Cell K V)]).map Cell.pair },
          false, none) := by
  have hc1 : ¬(0 < C ∧ C ≤ ((es.map Cell.pair).length : Int)) := by
    rw [List.length_map]; exact hc
  simp only [Model.Put, Model.find_none C es hk, Option.isSome_none, hc1]
  simp [Cell.pair]

theorem Model.Get_hit [Inhabited V] (C : Int) (l1 l2 : List (Cell K V)) (e : Cell K V)
    (nd : ((l1 ++ e :: l2).map Cell.key).Nodup) :
    Model.Get { cap := C, entries := (l1 ++ e :: l2).map Cell.pair } e.key
      = ({ cap := C, entries := (l1 ++ l2 ++ [e]).map Cell.pair }, e.val, true) := by
  simp only [Model.Get, Model.find_mid C l1 l2 e nd, filter_pair_mid l1 l2 e nd]
  simp [Cell.pair]

theorem Model.Get_miss [Inhabited V] (C : Int) (es : List (Cell K V)) {k : K}
    (hk : k ∉ es.map Cell.key) :
    Model.Get { cap := C, entries := es.map Cell.pair } k
      = ({ cap := C, entries := es.map Cell.pair }, default, false) := by
  simp only [Model.Get, Model.find_none C es hk]

theorem Model.Remove_hit (C : Int) (l1 l2 : List (Cell K V)) (e : Cell K V)
    (nd : ((l1 ++ e :: l2).map Cell.key).Nodup) :
    Model.Remove { cap := C, entries := (l1 ++ e :: l2).map Cell.pair } e.key
      = ({ cap := C, entries := (l1 ++ l2).map Cell.pair }, true, some (e.key, e.val)) := by
  simp only [Model.Remove, Model.find_mid C l1 l2 e nd, filter_pair_mid l1 l2 e nd]

theorem Model.Remove_miss (C : Int) (es : List (Cell K V)) {k : K}
    (hk : k ∉ es.map Cell.key) :
    Model.Remove { cap := C, entries := es.map Cell.pair } k
      = ({ cap := C, entries := es.map Cell.pair }, false, none) := by
  simp only [Model.Remove, Model.find_none C es hk]

/-- One call keeps the engine and the list model in step and returns the same. -/
theorem step_sim [Inhabited V] {s : LRUCache K V} {es : List (Cell K V)} (hr : Rep s es)
    (o : Op K V) :
    ∃ s1 es1, engineStep s o
        = some (s1, (modelStep { cap := s.MaxEntries, entries := es.map Cell.pair } o).2) ∧
      Rep s1 es1 ∧
      (modelStep { cap := s.MaxEntries, entries := es.map Cell.pair } o).1
        = { cap := s1.MaxEntries, entries := es1.map Cell.pair } := by
  cases o with
  | put k v =>
    by_cases hk : k ∈ es.map Cell.key
    · obtain ⟨l1, e, l2, rfl, rfl⟩ := split_of_key hk
      obtain ⟨s1, e1, r1, m1⟩ := Put_hit_spec hr v
      have hm := Model.Put_hit s.MaxEntries l1 l2 e v hr.keys
      refine ⟨s1, _, ?_, r1, ?_⟩
      · simp only [modelStep, hm]
        simp [engineStep, e1, entryOf]
      · simp only [modelStep, hm, m1]
    · by_cases hc : 0 < s.MaxEntries ∧ s.MaxEntries ≤ (es.length : Int)
      · cases es with
        | nil =>
          simp at hc
          omega
        | cons c tl =>
          obtain ⟨s1, e1, r1, m1, it, hit, hK, hV⟩ := Put_evict_spec hr k v hk hc
          have hm := Model.Put_evict s.MaxEntries c tl k v s.fresh hk hc
          refine ⟨s1, _, ?_, r1, ?_⟩
          · simp only [modelStep, hm]
            simp [engineStep, e1, entryOf, hit, hK, hV]
          · simp only [modelStep, hm, m1]
      · obtain ⟨s1, e1, r1, m1⟩ := Put_grow_spec hr k v hk hc
        have hm := Model.Put_grow s.MaxEntries es k v s.fresh hk hc
        refine ⟨s1, _, ?_, r1, ?_⟩
        · simp only [modelStep, hm]
          simp [engineStep, e1, entryOf]
        · simp only [modelStep, hm, m1]
  | get k =>
    by_cases hk : k ∈ es.map Cell.key
    · obtain ⟨l1, e, l2, rfl, rfl⟩ := split_of_key hk
      obtain ⟨s1, e1, r1, m1⟩ := Get_hit_spec hr
      have hm := Model.Get_hit s.MaxEntries l1 l2 e hr.keys
      refine ⟨s1, _, ?_, r1, ?_⟩
      · simp only [modelStep, hm]
        simp [engineStep, e1]
      · simp only [modelStep, hm, m1]
    · have hm := Model.Get_miss s.MaxEntries es hk
      refine ⟨s, es, ?_, hr, ?_⟩
      · simp only [modelStep, hm]
        simp [engineStep, Get_miss_spec hr hk]
      · simp only [modelStep, hm]
  | peek k =>
    refine ⟨s, es, ?_, hr, rfl⟩
    by_cases hk : k ∈ es.map Cell.key
    · obtain ⟨l1, e, l2, rfl, rfl⟩ := split_of_key hk
      have hf := Model.find_mid s.MaxEntries l1 l2 e hr.keys
      simp only [modelStep, Model.Peek, hf]
      simp [engineStep, hr.peek_mem (c := e) (by simp)]
    · have hf := Model.find_none s.MaxEntries es hk
      simp only [modelStep, Model.Peek, hf]
      simp [engineStep, hr.peek_none hk]
  | contains k =>
    refine ⟨s, es, ?_, hr, rfl⟩
    by_cases hk : k ∈ es.map Cell.key
    · obtain ⟨l1, e, l2, rfl, rfl⟩ := split_of_key hk
      have hf := Model.find_mid s.MaxEntries l1 l2 e hr.keys
      simp only [modelStep, Model.Contains, hf]
      simp [engineStep, (hr.contains_iff _).2 hk]
    · have hf := Model.find_none s.MaxEntries es hk
      have hc : Contains s k = false := by
        cases h : Contains s k with
        | false => rfl
        | true => exact absurd ((hr.contains_iff _).1 h) hk
      simp only [modelStep, Model.Contains, hf]
      simp [engineStep, hc]
  | remove k =>
    by_cases hk : k ∈ es.map Cell.key
    · obtain ⟨l1, e, l2, rfl, rfl⟩ := split_of_key hk
      obtain ⟨s1, e1, r1, m1, it, hit, hK, hV⟩ := Remove_hit_spec hr
      have hm := Model.Remove_hit s.MaxEntries l1 l2 e hr.keys
      refine ⟨s1, _, ?_, r1, ?_⟩
      · simp only [modelStep, hm]
        simp [engineStep, e1, entryOf, hit, hK, hV]
      · simp only [modelStep, hm, m1]
    · have hm := Model.Remove_miss s.MaxEntries es hk
      refine ⟨s, es, ?_, hr, ?_⟩
      · simp only [modelStep, hm]
        simp [engineStep, Remove_miss_spec hr hk, entryOf]
      · simp only [modelStep, hm]

theorem run_sim [Inhabited V] (ops : List (Op K V)) :
    ∀ (s : LRUCache K V) (es : List (Cell K V)), Rep s es →
      engineRun s ops
        = some (modelRun { cap := s.MaxEntries, entries := es.map Cell.pair } ops) ∧
      ∀ x ∈ modelRun { cap := s.MaxEntries, entries := es.map Cell.pair } ops,
        x.2.1.Nodup := by
  induction ops with
  | nil => intro s es _; exact ⟨rfl, fun _ h => nomatch h⟩
  | cons o os ih =>
    intro s es hr
    obtain ⟨s1, es1, e1, r1, hm⟩ := step_sim hr o
    obtain ⟨h1, h2⟩ := ih s1 es1 r1
    have hk : (es1.map Cell.pair).map Prod.fst = es1.map Cell.key := by
      rw [List.map_map]; rfl
    have hv : (es1.map Cell.pair).map Prod.snd = es1.map Cell.val := by
      rw [List.map_map]; rfl
    constructor
    · simp only [engineRun, e1, Option.bind_eq_bind, Option.some_bind, r1.keys_eq,
        r1.values_eq, h1, modelRun, hm, hk, hv, r1.len, List.length_map]
    · intro x hx
      simp only [modelRun, hm, List.mem_cons] at hx
      rcases hx with rfl | hx
      · show ((es1.map Cell.pair).map Prod.fst).Nodup
        rw [hk]; exact r1.keys
      · exact h2 x hx

/-- The two outcomes of `Put` on a represented state: no eviction, or eviction of the
first cell, whose key and value stay readable through the returned pointer. -/
theorem Put_cases {s : LRUCache K V} {es : List (Cell K V)} (hr : Rep s es) (k : K) (v : V) :
    (∃ s1, Put s k v = some (s1, false, none)) ∨
    (∃ s1 c tl it, es = c :: tl ∧ k ∉ es.map Cell.key ∧
      Put s k v = some (s1, true, some c.ptr) ∧ s1.heap c.ptr = some it ∧
      it.Key = c.key ∧ it.Val = c.val) := by
  by_cases hk : k ∈ es.map Cell.key
  · obtain ⟨l1, e, l2, rfl, rfl⟩ := split_of_key hk
    obtain ⟨s1, e1, -⟩ := Put_hit_spec hr v
    exact Or.inl ⟨s1, e1⟩
  · by_cases hc : 0 < s.MaxEntries ∧ s.MaxEntries ≤ (es.length : Int)
    · cases es with
      | nil =>
        simp at hc
        omega
      | cons c tl =>
        obtain ⟨s1, e1, -, -, it, hit, hK, hV⟩ := Put_evict_spec hr k v hk hc
        exact Or.inr ⟨s1, c, tl, it, rfl, hk, e1, hit, hK, hV⟩
    · obtain ⟨s1, e1, -⟩ := Put_grow_spec hr k v hk hc
      exact Or.inl ⟨s1, e1⟩

/-- The two outcomes of `Remove` on a represented state. -/
theorem Remove_cases {s : LRUCache K V} {es : List (Cell K V)} (hr : Rep s es) (k : K) :
    (k ∉ es.map Cell.key ∧ Remove s k = some (s, false, none)) ∨
    (∃ s1 c it, c ∈ es ∧ c.key = k ∧ Remove s k = some (s1, true, some c.ptr) ∧
      s1.heap c.ptr = some it ∧ it.Key = c.key ∧ it.Val = c.val) := by
  by_cases hk : k ∈ es.map Cell.key
  · obtain ⟨l1, e, l2, rfl, rfl⟩ := split_of_key hk
    obtain ⟨s1, e1, -, -, it, hit, hK, hV⟩ := Remove_hit_spec hr
    exact Or.inr ⟨s1, e, it, by simp, rfl, e1, hit, hK, hV⟩
  · exact Or.inl ⟨hk, Remove_miss_spec hr hk⟩

end Lemmas

end lru

/-! ## The claims -/

namespace lru

set_option linter.unusedSectionVars false

section Claims

variable {K V : Type} [DecidableEq K] [Inhabited V]

/-- C1: in a state reachable from `New C` with `C > 0` and `Len() = C`, `Put` of an
absent key returns `(true, e)` where `e` carries the key and value at the head of
`Keys()`/`Values()`; afterwards that key is absent, `Len()` is still `C`, and the
key and value sequences are the old ones without their head followed by the new
pair.  In every reachable state `Put` returns `true` only in that case. -/
theorem put_full_evicts_lru (C : Int) (s : LRUCache K V) (hreach : Reachable C s)
    (k : K) (v : V) :
    (0 < C → (Len s : Int) = C → Contains s k = false →
      ∃ s1 e it ks vs, Put s k v = some (s1, true, some e) ∧ s1.heap e = some it ∧
        Keys s = some ks ∧ Values s = some vs ∧
        ks.head? = some it.Key ∧ vs.head? = some it.Val ∧
        Contains s1 it.Key = false ∧ (Len s1 : Int) = C ∧
        Keys s1 = some (ks.tail ++ [k]) ∧ Values s1 = some (vs.tail ++ [v])) ∧
    (∀ s1 e, Put s k v = some (s1, true, e) →
      0 < C ∧ (Len s : Int) = C ∧ Contains s k = false) := by
  obtain ⟨es, hr, hm, hcap⟩ := reach_rep hreach
  have hlen : Len s = es.length := hr.len
  constructor
  · intro hC hfull hk
    have hkn := hr.not_mem_of_contains hk
    cases es with
    | nil =>
      rw [hlen] at hfull
      simp at hfull
      omega
    | cons e rest =>
      have hc : 0 < s.MaxEntries ∧ s.MaxEntries ≤ ((e :: rest).length : Int) := by
        rw [hm, ← hlen, hfull]; exact ⟨hC, le_refl _⟩
      obtain ⟨s1, e1, r1, -, it, hit, hK, hV⟩ := Put_evict_spec hr k v hkn hc
      refine ⟨s1, e.ptr, it, (e :: rest).map Cell.key, (e :: rest).map Cell.val, e1, hit,
        hr.keys_eq, hr.values_eq, by simp [hK], by simp [hV], ?_, ?_, ?_, ?_⟩
      · have h1 : e.key ∉ rest.map Cell.key := (List.nodup_cons.1 hr.keys).1
        have h2 : e.key ≠ k := fun h => hkn (by simp [h])
        cases hc1 : Contains s1 it.Key with
        | false => rfl
        | true =>
          have hmem := (r1.contains_iff _).1 hc1
          rw [hK, List.map_append, List.mem_append] at hmem
          rcases hmem with h | h
          · exact absurd h h1
          · simp at h
            exact absurd h h2
      · rw [r1.len, ← hfull, hlen]
        simp
      · rw [r1.keys_eq]; simp
      · rw [r1.values_eq]; simp
  · intro s1 e hput
    by_cases hk : k ∈ es.map Cell.key
    · obtain ⟨l1, c, l2, rfl, rfl⟩ := split_of_key hk
      obtain ⟨t, e1, -⟩ := Put_hit_spec hr v
      rw [e1] at hput
      simp at hput
    · by_cases hc : 0 < s.MaxEntries ∧ s.MaxEntries ≤ (es.length : Int)
      · rw [hm] at hc
        have := hcap hc.1
        refine ⟨hc.1, by rw [hlen]; omega, ?_⟩
        cases hc1 : Contains s k with
        | false => rfl
        | true => exact absurd ((hr.contains_iff _).1 hc1) hk
      · obtain ⟨t, e1, -⟩ := Put_grow_spec hr k v hk hc
        rw [e1] at hput
        simp at hput

/-- C1 at capacity 2 holding keys 1 and 2: `Put(3, 30)` evicts key 1. -/
theorem put_full_evicts_lru_witness :
    (∃ s1 e it ks vs, Put exFull 3 30 = some (s1, true, some e) ∧ s1.heap e = some it ∧
        Keys exFull = some ks ∧ Values exFull = some vs ∧
        ks.head? = some it.Key ∧ vs.head? = some it.Val ∧
        Contains s1 it.Key = false ∧ (Len s1 : Int) = 2 ∧
        Keys s1 = some (ks.tail ++ [3]) ∧ Values s1 = some (vs.tail ++ [30])) ∧
    (∀ s1 e, Put exFull 3 30 = some (s1, true, e) →
      (0 : Int) < 2 ∧ (Len exFull : Int) = 2 ∧ Contains exFull 3 = false) :=
  ⟨(put_full_evicts_lru 2 exFull exFull_reachable 3 30).1 (by decide) (by decide)
      (by decide),
    (put_full_evicts_lru 2 exFull exFull_reachable 3 30).2⟩

/-- C2: capacity bound.  For `C > 0`, every sequence of `Put`, `Get`, `Peek`,
`Contains` and `Remove` calls on `New C` runs to the end, and `Len() ≤ C` holds in
the state after every call. -/
theorem capacity_bound (C : Int) (hC : 0 < C) (ops : List (Op K V)) :
    ∃ ss, trace (New C) ops = some ss ∧ ss.length = ops.length ∧
      ∀ s ∈ ss, (Len s : Int) ≤ C := by
  obtain ⟨ss, hss, hl, hall⟩ := trace_reachable (Reachable.init (C := C)) ops
  refine ⟨ss, hss, hl, fun s hs => ?_⟩
  obtain ⟨es, hr, -, hcap⟩ := reach_rep (hall s hs)
  rw [hr.len]
  exact hcap hC

/-- C2 at capacity 2 with five calls, three of them inserting new keys. -/
theorem capacity_bound_witness :
    ∃ ss, trace (New 2 : LRUCache Nat Nat)
        [.put 1 10, .put 2 20, .get 1, .put 3 30, .remove 9] = some ss ∧
      ss.length = [Op.put 1 10, .put 2 20, .get 1, .put 3 30, .remove 9].length ∧
      ∀ s ∈ ss, (Len s : Int) ≤ 2 :=
  capacity_bound 2 (by decide) [.put 1 10, .put 2 20, .get 1, .put 3 30, .remove 9]

/-- C3: `Get` promotes on a hit.  In a reachable state where key `k` is present with
value `v`, `Get(k)` returns `(v, true)`, `Len()` is unchanged, and the key and value
sequences are the old ones with the entry of `k` taken out of its position `i` and
appended at the end; when `k` was already the most recent entry they are unchanged. -/
theorem get_promotes (C : Int) (s : LRUCache K V) (hreach : Reachable C s)
    (k : K) (v : V) (hk : Peek s k = some (v, true)) :
    ∃ s1 ks vs i, Get s k = some (s1, v, true) ∧ Len s1 = Len s ∧
      Keys s = some ks ∧ Values s = some vs ∧ ks[i]? = some k ∧ vs[i]? = some v ∧
      Keys s1 = some (ks.eraseIdx i ++ [k]) ∧ Values s1 = some (vs.eraseIdx i ++ [v]) ∧
      (i + 1 = ks.length → Keys s1 = some ks ∧ Values s1 = some vs) := by
  obtain ⟨es, hr, -⟩ := reach_rep hreach
  obtain ⟨l1, e, l2, rfl, rfl, rfl⟩ := hr.split_of_peek hk
  obtain ⟨s1, e1, r1, -⟩ := Get_hit_spec hr
  refine ⟨s1, (l1 ++ e :: l2).map Cell.key, (l1 ++ e :: l2).map Cell.val, l1.length, e1,
    ?_, hr.keys_eq, hr.values_eq, map_getElem?_mid _ _ _ _, map_getElem?_mid _ _ _ _,
    ?_, ?_, ?_⟩
  · rw [r1.len, hr.len]
    simp
  · rw [r1.keys_eq, map_eraseIdx_mid]
    simp
  · rw [r1.values_eq, map_eraseIdx_mid]
    simp
  · intro hlast
    have hl2 : l2 = [] := by
      cases l2 with
      | nil => rfl
      | cons b l2 =>
        simp at hlast
    subst hl2
    rw [r1.keys_eq, r1.values_eq]
    simp

/-- C3 at capacity 3 holding keys 1, 2, 3: `Get(2)` moves key 2 to the end. -/
theorem get_promotes_witness :
    ∃ s1 ks vs i, Get exThree 2 = some (s1, 20, true) ∧ Len s1 = Len exThree ∧
      Keys exThree = some ks ∧ Values exThree = some vs ∧
      ks[i]? = some 2 ∧ vs[i]? = some 20 ∧
      Keys s1 = some (ks.eraseIdx i ++ [2]) ∧ Values s1 = some (vs.eraseIdx i ++ [20]) ∧
      (i + 1 = ks.length → Keys s1 = some ks ∧ Values s1 = some vs) :=
  get_promotes 3 exThree exThree_reachable 2 20 (by decide)

/-- C4: LRU contents after sequential inserts.  Putting `N` pairwise distinct keys
into a fresh `New C` with `C > 0` runs to the end; `Keys()` is then the last
`min(N, C)` keys in insertion order and `Values()` the matching values; then, also
after any number of earlier `Get` calls, `Get` of the `i`-th key misses when
`i < N - C` and returns its value when `i ≥ N - C`. -/
theorem sequential_inserts (C : Nat) (hC : 0 < C) (kvs : List (K × V))
    (hnd : (kvs.map Prod.fst).Nodup) :
    ∃ s fl, putAll (New (C : Int)) kvs = some (s, fl) ∧
      Keys s = some ((kvs.map Prod.fst).drop (kvs.length - C)) ∧
      Values s = some ((kvs.map Prod.snd).drop (kvs.length - C)) ∧
      ((kvs.map Prod.fst).drop (kvs.length - C)).length = min kvs.length C ∧
      ∀ gs : List K, ∃ t, runOps s (gs.map fun g => (Op.get g : Op K V)) = some t ∧
        ∀ i k v, kvs[i]? = some (k, v) →
          (i < kvs.length - C → Get t k = some (t, default, false)) ∧
          (kvs.length - C ≤ i → ∃ t1, Get t k = some (t1, v, true)) := by
  obtain ⟨s, es, fl, e1, hr, hp, -⟩ :=
    putAll_spec C hC kvs (New (C : Int)) [] (Rep_New _) rfl (Nat.zero_le _) (by simpa using hnd)
  simp only [List.map_nil, List.nil_append, List.length_nil, Nat.zero_add] at hp
  have hkeys : es.map Cell.key = (kvs.map Prod.fst).drop (kvs.length - C) := by
    have := congrArg (List.map Prod.fst) hp
    simpa [List.map_map, Function.comp_def] using this
  have hvals : es.map Cell.val = (kvs.map Prod.snd).drop (kvs.length - C) := by
    have := congrArg (List.map Prod.snd) hp
    simpa [List.map_map, Function.comp_def] using this
  refine ⟨s, fl, e1, by rw [hr.keys_eq, hkeys], by rw [hr.values_eq, hvals], ?_, ?_⟩
  · simp; omega
  · intro gs
    obtain ⟨t, es1, e2, r2, hperm⟩ := gets_spec hr gs
    refine ⟨t, e2, fun i k v hi => ⟨fun hlt => ?_, fun hge => ?_⟩⟩
    · refine Get_miss_spec r2 ?_
      rw [(hperm.map Cell.key).mem_iff, hkeys]
      intro hmem
      have htake : (k, v) ∈ kvs.take (kvs.length - C) :=
        List.getElem?_mem ((List.getElem?_take_of_lt hlt).trans hi)
      have hsplit := hnd
      rw [← List.take_append_drop (kvs.length - C) kvs, List.map_append,
        List.nodup_append] at hsplit
      rw [← List.map_drop] at hmem
      exact hsplit.2.2 (List.mem_map_of_mem Prod.fst htake) hmem
    · have hdrop : (kvs.drop (kvs.length - C))[i - (kvs.length - C)]? = some (k, v) := by
        rw [List.getElem?_drop]
        have : kvs.length - C + (i - (kvs.length - C)) = i := by omega
        rw [this]; exact hi
      have hmem := List.getElem?_mem hdrop
      rw [← hp, ← (hperm.map fun c => (c.key, c.val)).mem_iff] at hmem
      obtain ⟨c, hc, hce⟩ := List.mem_map.1 hmem
      obtain ⟨l1, l2, rfl⟩ := List.append_of_mem hc
      obtain ⟨t1, e3, -⟩ := Get_hit_spec r2
      simp only [Prod.mk.injEq] at hce
      rw [hce.1, hce.2] at e3
      exact ⟨t1, e3⟩

/-- C4 at capacity 2 with keys 1, 2, 3: the cache ends holding keys 2 and 3. -/
theorem sequential_inserts_witness :
    ∃ s fl, putAll (New ((2 : Nat) : Int)) [((1 : Nat), (10 : Nat)), (2, 20), (3, 30)]
        = some (s, fl) ∧
      Keys s = some (([(1, 10), (2, 20), (3, 30)].map Prod.fst).drop
        ([((1 : Nat), (10 : Nat)), (2, 20), (3, 30)].length - 2)) ∧
      Values s = some (([(1, 10), (2, 20), (3, 30)].map Prod.snd).drop
        ([((1 : Nat), (10 : Nat)), (2, 20), (3, 30)].length - 2)) ∧
      (([((1 : Nat), (10 : Nat)), (2, 20), (3, 30)].map Prod.fst).drop
        ([((1 : Nat), (10 : Nat)), (2, 20), (3, 30)].length - 2)).length
          = min [((1 : Nat), (10 : Nat)), (2, 20), (3, 30)].length 2 ∧
      ∀ gs : List Nat, ∃ t, runOps s (gs.map fun g => (Op.get g : Op Nat Nat)) = some t ∧
        ∀ i k v, [((1 : Nat), (10 : Nat)), (2, 20), (3, 30)][i]? = some (k, v) →
          (i < [((1 : Nat), (10 : Nat)), (2, 20), (3, 30)].length - 2 →
            Get t k = some (t, default, false)) ∧
          ([((1 : Nat), (10 : Nat)), (2, 20), (3, 30)].length - 2 ≤ i →
            ∃ t1, Get t k = some (t1, v, true)) :=
  sequential_inserts 2 (by decide) [(1, 10), (2, 20), (3, 30)] (by decide)

/-- C5: eviction count.  Putting `N > C` pairwise distinct keys into a fresh
`New C` with `C > 0` runs to the end; the first `C` calls return `false`, the
remaining `N - C` return `true`, and `Len() = C` at the end. -/
theorem eviction_count (C : Nat) (hC : 0 < C) (kvs : List (K × V))
    (hnd : (kvs.map Prod.fst).Nodup) (hN : C < kvs.length) :
    ∃ s fl, putAll (New (C : Int)) kvs = some (s, fl) ∧
      fl = List.replicate C false ++ List.replicate (kvs.length - C) true ∧
      fl.count true = kvs.length - C ∧ Len s = C := by
  obtain ⟨s, es, fl, e1, hr, hp, hf⟩ :=
    putAll_spec C hC kvs (New (C : Int)) [] (Rep_New _) rfl (Nat.zero_le _) (by simpa using hnd)
  simp only [List.map_nil, List.nil_append, List.length_nil, Nat.zero_add, Nat.sub_zero] at hp hf
  have hmin : min C kvs.length = C := by omega
  rw [hmin] at hf
  refine ⟨s, fl, e1, hf, ?_, ?_⟩
  · rw [hf]
    simp [List.count_replicate]
  · have := congrArg List.length hp
    rw [hr.len]
    simp at this
    omega

/-- C5 at capacity 2 with keys 1, 2, 3: one eviction, by the third call. -/
theorem eviction_count_witness :
    ∃ s fl, putAll (New ((2 : Nat) : Int)) [((1 : Nat), (10 : Nat)), (2, 20), (3, 30)]
        = some (s, fl) ∧
      fl = List.replicate 2 false ++
        List.replicate ([((1 : Nat), (10 : Nat)), (2, 20), (3, 30)].length - 2) true ∧
      fl.count true = [((1 : Nat), (10 : Nat)), (2, 20), (3, 30)].length - 2 ∧ Len s = 2 :=
  eviction_count 2 (by decide) [(1, 10), (2, 20), (3, 30)] (by decide) (by decide)

/-- C6: promotion changes the eviction victim.  In a reachable full state of capacity
`C ≥ 2`, for a present key `k` and an absent key `j`, `Get(k)` followed by
`Put(j, v)` evicts an entry whose key is not `k` and keeps `k`; the evicted key is
the oldest key other than `k`: the second of `Keys()` when `k` was the oldest, the
first otherwise. -/
theorem promotion_changes_victim (C : Int) (s : LRUCache K V) (hreach : Reachable C s)
    (hC : 2 ≤ C) (hfull : (Len s : Int) = C) (k : K) (hk : Contains s k = true)
    (j : K) (v : V) (hj : Contains s j = false) :
    ∃ s1 r s2 e it ks, Get s k = some (s1, r) ∧ Put s1 j v = some (s2, true, some e) ∧
      s2.heap e = some it ∧ it.Key ≠ k ∧ Contains s2 k = true ∧ Keys s = some ks ∧
      (ks.filter (fun a => decide (a ≠ k))).head? = some it.Key ∧
      (ks.head? = some k → ks[1]? = some it.Key) ∧
      (ks.head? ≠ some k → ks.head? = some it.Key) := by
  obtain ⟨es, hr, hm, -⟩ := reach_rep hreach
  obtain ⟨l1, e, l2, rfl, rfl⟩ := hr.split_of_contains hk
  have hjn := hr.not_mem_of_contains hj
  have hlen : ((l1 ++ e :: l2).length : Int) = C := by rw [← hr.len]; exact hfull
  obtain ⟨s1, e1, r1, m1⟩ := Get_hit_spec hr
  obtain ⟨ndk, hkn⟩ := nodup_mid Cell.key hr.keys
  obtain ⟨c, tl, hct⟩ : ∃ c tl, l1 ++ l2 = c :: tl := by
    cases h : l1 ++ l2 with
    | nil =>
      have := congrArg List.length h
      simp only [List.length_append, List.length_nil] at this
      simp only [List.length_append, List.length_cons] at hlen
      push_cast at hlen
      omega
    | cons c tl => exact ⟨c, tl, rfl⟩
  have hcm : c ∈ l1 ++ l2 := by rw [hct]; simp
  have hne : c.key ≠ e.key := fun h => hkn (h ▸ List.mem_map_of_mem Cell.key hcm)
  have r1c : Rep s1 (c :: (tl ++ [e])) := by
    have := r1
    rw [hct] at this
    exact this
  have hjn1 : j ∉ (c :: (tl ++ [e])).map Cell.key := by
    intro hmem
    have h2 : j ∈ (l1 ++ l2 ++ [e]).map Cell.key := by rw [hct]; exact hmem
    exact hjn (((perm_move l1 l2 e).map Cell.key).mem_iff.1 h2)
  have hc1 : 0 < s1.MaxEntries ∧ s1.MaxEntries ≤ ((c :: (tl ++ [e])).length : Int) := by
    rw [m1, hm]
    have h3 : (c :: (tl ++ [e])).length = (l1 ++ e :: l2).length := by
      have := congrArg List.length hct
      simp at this ⊢
      omega
    rw [h3, hlen]
    exact ⟨by omega, le_refl _⟩
  obtain ⟨s2, e2, r2, -, it, hit, hK, -⟩ := Put_evict_spec r1c j v hjn1 hc1
  have hfilter : ((l1 ++ e :: l2).map Cell.key).filter (fun a => decide (a ≠ e.key))
      = (c :: tl).map Cell.key := by
    rw [List.filter_map]
    have hf : ((fun a : K => decide (a ≠ e.key)) ∘ Cell.key)
        = fun x : Cell K V => decide (x.key ≠ e.key) := rfl
    rw [hf, filter_key_ne l1 l2 e hr.keys, hct]
  refine ⟨s1, _, s2, c.ptr, it, (l1 ++ e :: l2).map Cell.key, e1, e2, hit, by rw [hK]; exact hne,
    (r2.contains_iff _).2 (by simp), hr.keys_eq, by rw [hfilter, hK]; rfl, ?_, ?_⟩
  · intro hhead
    cases l1 with
    | nil =>
      rw [List.nil_append] at hct
      rw [hct, hK]
      simp
    | cons a l1 =>
      simp only [List.cons_append, List.map_cons, List.head?_cons, Option.some.injEq] at hhead
      simp only [List.cons_append, List.cons.injEq] at hct
      exact absurd (hct.1 ▸ hhead) hne
  · intro hhead
    cases l1 with
    | nil => exact absurd rfl hhead
    | cons a l1 =>
      simp only [List.cons_append, List.cons.injEq] at hct
      rw [hK, ← hct.1]
      rfl

/-- C6 at capacity 2 holding keys 1 and 2: after `Get(1)`, `Put(3, 30)` evicts key 2. -/
theorem promotion_changes_victim_witness :
    ∃ s1 r s2 e it ks, Get exFull 1 = some (s1, r) ∧ Put s1 3 30 = some (s2, true, some e) ∧
      s2.heap e = some it ∧ it.Key ≠ 1 ∧ Contains s2 1 = true ∧ Keys exFull = some ks ∧
      (ks.filter (fun a => decide (a ≠ 1))).head? = some it.Key ∧
      (ks.head? = some 1 → ks[1]? = some it.Key) ∧
      (ks.head? ≠ some 1 → ks.head? = some it.Key) :=
  promotion_changes_victim 2 exFull exFull_reachable (by decide) (by decide) 1 (by decide)
    3 30 (by decide)

/-- C7: `Peek` and `Contains` do not change recency.  In a reachable state both calls
leave the engine state as it is, `Contains(k)` is the found flag of `Peek(k)`, `Peek`
on a present key returns the value stored at the position of the key, and after any
sequence of `Peek`/`Contains` calls a `Put` does what it would have done alone. -/
theorem peek_contains_keep_state (C : Int) (s : LRUCache K V) (hreach : Reachable C s)
    (k : K) :
    applyOp s (.peek k) = some s ∧ applyOp s (.contains k) = some s ∧
    (∃ v b, Peek s k = some (v, b) ∧ Contains s k = b ∧
      (b = true → ∃ ks vs, ∃ i : Nat, Keys s = some ks ∧ Values s = some vs ∧
        ks[i]? = some k ∧ vs[i]? = some v)) ∧
    (∀ ops : List (Op K V), (∀ o ∈ ops, o.isQuery = true) →
      runOps s ops = some s ∧
      ∀ j w, (runOps s ops).bind (fun t => Put t j w) = Put s j w) := by
  obtain ⟨es, hr, -⟩ := reach_rep hreach
  refine ⟨applyOp_query hreach rfl, rfl, ?_, ?_⟩
  · by_cases hk : k ∈ es.map Cell.key
    · obtain ⟨l1, e, l2, rfl, rfl⟩ := split_of_key hk
      exact ⟨e.val, true, hr.peek_mem (by simp), (hr.contains_iff _).2 hk, fun _ =>
        ⟨_, _, l1.length, hr.keys_eq, hr.values_eq, map_getElem?_mid _ _ _ _,
          map_getElem?_mid _ _ _ _⟩⟩
    · refine ⟨default, false, hr.peek_none hk, ?_, fun h => nomatch h⟩
      cases hc : Contains s k with
      | false => rfl
      | true => exact absurd ((hr.contains_iff _).1 hc) hk
  · intro ops hq
    have h := runOps_query hreach ops hq
    exact ⟨h, fun j w => by rw [h]; rfl⟩

/-- C7 at capacity 2 holding keys 1 and 2, looking at key 1. -/
theorem peek_contains_keep_state_witness :
    applyOp exFull (.peek 1) = some exFull ∧ applyOp exFull (.contains 1) = some exFull ∧
    (∃ v b, Peek exFull 1 = some (v, b) ∧ Contains exFull 1 = b ∧
      (b = true → ∃ ks vs, ∃ i : Nat, Keys exFull = some ks ∧ Values exFull = some vs ∧
        ks[i]? = some 1 ∧ vs[i]? = some v)) ∧
    (runOps exFull [.peek 1, .contains 1, .peek 7] = some exFull ∧
      ∀ j w, (runOps exFull [.peek 1, .contains 1, .peek 7]).bind (fun t => Put t j w)
        = Put exFull j w) :=
  ⟨(peek_contains_keep_state 2 exFull exFull_reachable 1).1,
    (peek_contains_keep_state 2 exFull exFull_reachable 1).2.1,
    (peek_contains_keep_state 2 exFull exFull_reachable 1).2.2.1,
    (peek_contains_keep_state 2 exFull exFull_reachable 1).2.2.2 _ (by decide)⟩

/-- C8: overwrite semantics.  In a reachable state, `Put(k, v)` on a present key returns
`(false, nil)`, keeps `Len()` and `Keys()`, replaces the value at the position of
`k` by `v` and no other value, and a following `Get(k)` returns `(v, true)`. -/
theorem put_overwrites (C : Int) (s : LRUCache K V) (hreach : Reachable C s)
    (k : K) (v : V) (hk : Contains s k = true) :
    ∃ s1 ks vs i, Put s k v = some (s1, false, none) ∧ Len s1 = Len s ∧
      Keys s = some ks ∧ Keys s1 = some ks ∧ Values s = some vs ∧ ks[i]? = some k ∧
      Values s1 = some (vs.set i v) ∧ (∃ s2, Get s1 k = some (s2, v, true)) ∧
      ∀ k1, k1 ≠ k → Peek s1 k1 = Peek s k1 := by
  obtain ⟨es, hr, -⟩ := reach_rep hreach
  obtain ⟨l1, e, l2, rfl, rfl⟩ := hr.split_of_contains hk
  obtain ⟨s1, e1, r1, -⟩ := Put_hit_spec hr v
  obtain ⟨s2, e2, -⟩ := Get_hit_spec r1
  refine ⟨s1, (l1 ++ e :: l2).map Cell.key, (l1 ++ e :: l2).map Cell.val, l1.length, e1, ?_,
    hr.keys_eq, ?_, hr.values_eq, map_getElem?_mid _ _ _ _, ?_, ⟨s2, e2⟩, ?_⟩
  · rw [r1.len, hr.len]; simp
  · rw [r1.keys_eq]; simp
  · rw [r1.values_eq, map_set_mid]; simp
  · intro k1 hk1
    by_cases hm : k1 ∈ (l1 ++ e :: l2).map Cell.key
    · obtain ⟨c, hc, rfl⟩ := List.mem_map.1 hm
      have hce : c ≠ e := fun h => hk1 (h ▸ rfl)
      have hc1 : c ∈ l1 ++ { ptr := e.ptr, key := e.key, val := v } :: l2 := by
        simp only [List.mem_append, List.mem_cons] at hc ⊢
        rcases hc with h | h | h
        · exact Or.inl h
        · exact absurd h hce
        · exact Or.inr (Or.inr h)
      rw [hr.peek_mem hc, r1.peek_mem hc1]
    · have hm1 : k1 ∉ (l1 ++ { ptr := e.ptr, key := e.key, val := v } :: l2).map Cell.key := by
        simpa using hm
      rw [hr.peek_none hm, r1.peek_none hm1]

/-- C8 at capacity 2 holding keys 1 and 2: `Put(1, 77)` overwrites in place. -/
theorem put_overwrites_witness :
    ∃ s1 ks vs i, Put exFull 1 77 = some (s1, false, none) ∧ Len s1 = Len exFull ∧
      Keys exFull = some ks ∧ Keys s1 = some ks ∧ Values exFull = some vs ∧
      ks[i]? = some 1 ∧ Values s1 = some (vs.set i 77) ∧
      (∃ s2, Get s1 1 = some (s2, 77, true)) ∧
      ∀ k1, k1 ≠ 1 → Peek s1 k1 = Peek exFull k1 :=
  put_overwrites 2 exFull exFull_reachable 1 77 (by decide)

/-- C9: `Remove`.  In a reachable state, if `k` is present with value `v` then
`Remove(k)` returns `(true, e)` with `e.Key = k` and `e.Val = v`; afterwards
`Contains(k)` is false, `Len()` is one less, `Keys()`/`Values()` are the old
sequences with the position of `k` deleted, and a second `Remove(k)` returns
`(false, nil)`.  If `k` is absent, `Remove(k)` returns `(false, nil)` and the state
is unchanged. -/
theorem remove_deletes (C : Int) (s : LRUCache K V) (hreach : Reachable C s) (k : K) :
    (∀ v, Peek s k = some (v, true) →
      ∃ s1 e it ks vs, ∃ i : Nat, Remove s k = some (s1, true, some e) ∧
        s1.heap e = some it ∧ it.Key = k ∧ it.Val = v ∧ Contains s1 k = false ∧
        Len s1 + 1 = Len s ∧ Keys s = some ks ∧ Values s = some vs ∧
        ks[i]? = some k ∧ vs[i]? = some v ∧
        Keys s1 = some (ks.eraseIdx i) ∧ Values s1 = some (vs.eraseIdx i) ∧
        Remove s1 k = some (s1, false, none)) ∧
    (Contains s k = false → Remove s k = some (s, false, none)) := by
  obtain ⟨es, hr, -⟩ := reach_rep hreach
  constructor
  · intro v hp
    obtain ⟨l1, e, l2, rfl, rfl, rfl⟩ := hr.split_of_peek hp
    obtain ⟨s1, e1, r1, -, it, hit, hK, hV⟩ := Remove_hit_spec hr
    obtain ⟨-, hkn⟩ := nodup_mid Cell.key hr.keys
    refine ⟨s1, e.ptr, it, (l1 ++ e :: l2).map Cell.key, (l1 ++ e :: l2).map Cell.val,
      l1.length, e1, hit, hK, hV, ?_, ?_, hr.keys_eq, hr.values_eq,
      map_getElem?_mid _ _ _ _, map_getElem?_mid _ _ _ _, ?_, ?_, Remove_miss_spec r1 hkn⟩
    · cases hc : Contains s1 e.key with
      | false => rfl
      | true => exact absurd ((r1.contains_iff _).1 hc) hkn
    · rw [r1.len, hr.len]; simp; omega
    · rw [r1.keys_eq, map_eraseIdx_mid]
    · rw [r1.values_eq, map_eraseIdx_mid]
  · intro hk
    exact Remove_miss_spec hr (hr.not_mem_of_contains hk)

/-- C9 at capacity 3 holding keys 1, 2, 3: removing key 2, and the absent key 9. -/
theorem remove_deletes_witness :
    (∃ s1 e it ks vs, ∃ i : Nat, Remove exThree 2 = some (s1, true, some e) ∧
        s1.heap e = some it ∧ it.Key = 2 ∧ it.Val = 20 ∧ Contains s1 2 = false ∧
        Len s1 + 1 = Len exThree ∧ Keys exThree = some ks ∧ Values exThree = some vs ∧
        ks[i]? = some 2 ∧ vs[i]? = some 20 ∧
        Keys s1 = some (ks.eraseIdx i) ∧ Values s1 = some (vs.eraseIdx i) ∧
        Remove s1 2 = some (s1, false, none)) ∧
    Remove exThree 9 = some (exThree, false, none) :=
  ⟨(remove_deletes 3 exThree exThree_reachable 2).1 20 (by decide),
    (remove_deletes 3 exThree exThree_reachable 9).2 (by decide)⟩

/-- C10: insert without eviction.  In a reachable state, `Put(k, v)` of an absent key
with `MaxEntries ≤ 0` or `Len() < MaxEntries` returns `(false, nil)`, increases
`Len()` by one and appends `(k, v)` to the key and value sequences; and with
`MaxEntries ≤ 0` no `Put` in any reachable state evicts. -/
theorem put_inserts_without_eviction (C : Int) (s : LRUCache K V)
    (hreach : Reachable C s) :
    s.MaxEntries = C ∧
    (∀ k v, Contains s k = false →
      (s.MaxEntries ≤ 0 ∨ (Len s : Int) < s.MaxEntries) →
      ∃ s1 ks vs, Put s k v = some (s1, false, none) ∧ Len s1 = Len s + 1 ∧
        Keys s = some ks ∧ Values s = some vs ∧
        Keys s1 = some (ks ++ [k]) ∧ Values s1 = some (vs ++ [v])) ∧
    (s.MaxEntries ≤ 0 → ∀ k v, ∃ s1, Put s k v = some (s1, false, none)) := by
  obtain ⟨es, hr, hm, -⟩ := reach_rep hreach
  refine ⟨hm, ?_, ?_⟩
  · intro k v hk hcap
    have hkn := hr.not_mem_of_contains hk
    have hc : ¬(0 < s.MaxEntries ∧ s.MaxEntries ≤ (es.length : Int)) := by
      rw [← hr.len]
      intro h
      rcases hcap with h1 | h1 <;> omega
    obtain ⟨s1, e1, r1, -⟩ := Put_grow_spec hr k v hkn hc
    refine ⟨s1, es.map Cell.key, es.map Cell.val, e1, ?_, hr.keys_eq, hr.values_eq, ?_, ?_⟩
    · rw [r1.len, hr.len]; simp
    · rw [r1.keys_eq]; simp
    · rw [r1.values_eq]; simp
  · intro hle k v
    by_cases hk : k ∈ es.map Cell.key
    · obtain ⟨l1, e, l2, rfl, rfl⟩ := split_of_key hk
      obtain ⟨s1, e1, -⟩ := Put_hit_spec hr v
      exact ⟨s1, e1⟩
    · have hc : ¬(0 < s.MaxEntries ∧ s.MaxEntries ≤ (es.length : Int)) := by
        intro h; omega
      obtain ⟨s1, e1, -⟩ := Put_grow_spec hr k v hk hc
      exact ⟨s1, e1⟩

/-- C10 on the unlimited cache holding keys 1 and 2: `Put(3, 30)` appends. -/
theorem put_inserts_without_eviction_witness :
    exFree.MaxEntries = 0 ∧
    (∃ s1 ks vs, Put exFree 3 30 = some (s1, false, none) ∧ Len s1 = Len exFree + 1 ∧
        Keys exFree = some ks ∧ Values exFree = some vs ∧
        Keys s1 = some (ks ++ [3]) ∧ Values s1 = some (vs ++ [30])) ∧
    (∀ k v, ∃ s1, Put exFree k v = some (s1, false, none)) :=
  ⟨(put_inserts_without_eviction 0 exFree exFree_reachable).1,
    (put_inserts_without_eviction 0 exFree exFree_reachable).2.1 3 30 (by decide)
      (Or.inl (by decide)),
    (put_inserts_without_eviction 0 exFree exFree_reachable).2.2 (by decide)⟩

/-- C11: `Keys`/`Values` correspondence.  In every reachable state `Keys()` and
`Values()` return, both have `Len()` elements, the keys are pairwise distinct, and
at every index `i < Len()` the value `Values()[i]` is what `Peek(Keys()[i])` returns,
with `found = true`. -/
theorem keys_values_correspond (C : Int) (s : LRUCache K V) (hreach : Reachable C s) :
    ∃ ks vs, Keys s = some ks ∧ Values s = some vs ∧ ks.length = Len s ∧
      vs.length = Len s ∧ ks.Nodup ∧
      ∀ i : Nat, i < Len s →
        ∃ k v, ks[i]? = some k ∧ vs[i]? = some v ∧ Peek s k = some (v, true) := by
  obtain ⟨es, hr, -⟩ := reach_rep hreach
  refine ⟨es.map Cell.key, es.map Cell.val, hr.keys_eq, hr.values_eq, ?_, ?_, hr.keys, ?_⟩
  · rw [hr.len, List.length_map]
  · rw [hr.len, List.length_map]
  · intro i hi
    rw [hr.len] at hi
    have hc : es[i]? = some es[i] := List.getElem?_eq_getElem hi
    refine ⟨es[i].key, es[i].val, ?_, ?_, hr.peek_mem (List.getElem_mem hi)⟩
    · rw [List.getElem?_map, hc]; rfl
    · rw [List.getElem?_map, hc]; rfl

/-- C11 at capacity 3 holding keys 1, 2, 3. -/
theorem keys_values_correspond_witness :
    ∃ ks vs, Keys exThree = some ks ∧ Values exThree = some vs ∧ ks.length = Len exThree ∧
      vs.length = Len exThree ∧ ks.Nodup ∧
      ∀ i : Nat, i < Len exThree →
        ∃ k v, ks[i]? = some k ∧ vs[i]? = some v ∧ Peek exThree k = some (v, true) :=
  keys_values_correspond 3 exThree exThree_reachable

/-- C13: a miss is not an error and has no side effect.  In a reachable state, for a
key that is not in the cache, `Get` and `Peek` both return the zero value with
`found = false`, and the state after `Get` is the state before. -/
theorem miss_has_no_effect (C : Int) (s : LRUCache K V) (hreach : Reachable C s)
    (k : K) (hk : Contains s k = false) :
    Get s k = some (s, default, false) ∧ Peek s k = some (default, false) ∧
      applyOp s (.get k) = some s ∧ applyOp s (.peek k) = some s := by
  obtain ⟨es, hr, -⟩ := reach_rep hreach
  have hkn := hr.not_mem_of_contains hk
  have hg := Get_miss_spec hr hkn
  have hp := hr.peek_none hkn
  exact ⟨hg, hp, by simp [applyOp, hg], by simp [applyOp, hp]⟩

/-- C13 at capacity 2 holding keys 1 and 2, asking for key 9. -/
theorem miss_has_no_effect_witness :
    Get exFull 9 = some (exFull, default, false) ∧ Peek exFull 9 = some (default, false) ∧
      applyOp exFull (.get 9) = some exFull ∧ applyOp exFull (.peek 9) = some exFull :=
  miss_has_no_effect 2 exFull exFull_reachable 9 (by decide)

/-- C12: `Put`-then-`Get` round trip.  In every reachable state, for every key `k` and
value `v`, `Put(k, v)` returns, and right after it `Contains(k)`, `Peek(k)` and
`Get(k)` report `k` present with value `v`; an entry evicted by that `Put` has a key
other than `k`. -/
theorem put_then_get (C : Int) (s : LRUCache K V) (hreach : Reachable C s) (k : K) (v : V) :
    ∃ s1 b e, Put s k v = some (s1, b, e) ∧ Contains s1 k = true ∧
      Peek s1 k = some (v, true) ∧ (∃ s2, Get s1 k = some (s2, v, true)) ∧
      ∀ p, e = some p → ∃ it, s1.heap p = some it ∧ it.Key ≠ k := by
  obtain ⟨es, hr, -⟩ := reach_rep hreach
  by_cases hk : k ∈ es.map Cell.key
  · obtain ⟨l1, c, l2, rfl, rfl⟩ := split_of_key hk
    obtain ⟨s1, e1, r1, -⟩ := Put_hit_spec hr v
    obtain ⟨h1, h2, h3⟩ :=
      r1.present (c := { ptr := c.ptr, key := c.key, val := v }) (by simp)
    exact ⟨s1, false, none, e1, h1, h2, h3, fun p hp => nomatch hp⟩
  · by_cases hc : 0 < s.MaxEntries ∧ s.MaxEntries ≤ (es.length : Int)
    · cases es with
      | nil =>
        simp at hc
        omega
      | cons c es =>
        obtain ⟨s1, e1, r1, -, it, hit, hK, -⟩ := Put_evict_spec hr k v hk hc
        obtain ⟨h1, h2, h3⟩ :=
          r1.present (c := { ptr := s.fresh, key := k, val := v }) (by simp)
        refine ⟨s1, true, some c.ptr, e1, h1, h2, h3, fun p hp => ?_⟩
        cases hp
        exact ⟨it, hit, fun h => hk (by simp [← h, hK])⟩
    · obtain ⟨s1, e1, r1, -⟩ := Put_grow_spec hr k v hk hc
      obtain ⟨h1, h2, h3⟩ :=
        r1.present (c := { ptr := s.fresh, key := k, val := v }) (by simp)
      exact ⟨s1, false, none, e1, h1, h2, h3, fun p hp => nomatch hp⟩

/-- C12 at capacity 2 holding keys 1 and 2: `Put(3, 30)` evicts key 1 and keeps key 3. -/
theorem put_then_get_witness :
    ∃ s1 b e, Put exFull 3 30 = some (s1, b, e) ∧ Contains s1 3 = true ∧
      Peek s1 3 = some (30, true) ∧ (∃ s2, Get s1 3 = some (s2, 30, true)) ∧
      ∀ p, e = some p → ∃ it, s1.heap p = some it ∧ it.Key ≠ 3 :=
  put_then_get 2 exFull exFull_reachable 3 30

/-- C16: totality.  In every state reachable from `New c`, for any integer `c`, no
call dereferences a nil link: `Keys()` and `Values()` find an entry at each of their
`Len()` steps (and return empty sequences on an empty cache), `Get` on a present key
finds `first` allocated, and `Put`, `Get`, `Peek` and `Remove` return for every
argument. -/
theorem engine_total (c : Int) (s : LRUCache K V) (hreach : Reachable c s) :
    (∃ ks vs, Keys s = some ks ∧ Values s = some vs ∧ ks.length = Len s ∧
      vs.length = Len s) ∧
    (Len s = 0 → Keys s = some [] ∧ Values s = some []) ∧
    (∀ k, Contains s k = true → ∃ f it, s.first = some f ∧ s.heap f = some it) ∧
    (∀ k v, ∃ r, Put s k v = some r) ∧ (∀ k, ∃ r, Get s k = some r) ∧
    (∀ k, ∃ r, Peek s k = some r) ∧ (∀ k, ∃ r, Remove s k = some r) ∧
    (∀ ops : List (Op K V), ∃ ss, trace s ops = some ss ∧ ss.length = ops.length) := by
  obtain ⟨es, hr, -⟩ := reach_rep hreach
  refine ⟨⟨es.map Cell.key, es.map Cell.val, hr.keys_eq, hr.values_eq, ?_, ?_⟩, ?_, ?_,
    fun k v => Put_total hr k v, fun k => Get_total hr k, fun k => Peek_total hr k,
    fun k => Remove_total hr k, fun ops => ?_⟩
  · rw [hr.len, List.length_map]
  · rw [hr.len, List.length_map]
  · intro h0
    rw [hr.len] at h0
    have : es = [] := List.length_eq_zero.1 h0
    subst this
    exact ⟨hr.keys_eq, hr.values_eq⟩
  · intro k hk
    obtain ⟨l1, e, l2, rfl, rfl⟩ := hr.split_of_contains hk
    obtain ⟨x, hx, hxl⟩ := lastPtr_mem (l := l1 ++ e :: l2) (by simp) none
    obtain ⟨it, hit, -⟩ := Seg_mem hr.seg hx
    exact ⟨x.ptr, it, hr.first_eq.trans hxl, hit⟩
  · obtain ⟨ss, hss, hl, -⟩ := trace_reachable hreach ops
    exact ⟨ss, hss, hl⟩

/-- C16 at capacity -1 holding keys 1, 2, 3. -/
theorem engine_total_witness :
    (∃ ks vs, Keys exNeg = some ks ∧ Values exNeg = some vs ∧ ks.length = Len exNeg ∧
      vs.length = Len exNeg) ∧
    (Len exNeg = 0 → Keys exNeg = some [] ∧ Values exNeg = some []) ∧
    (∀ k, Contains exNeg k = true →
      ∃ f it, exNeg.first = some f ∧ exNeg.heap f = some it) ∧
    (∀ k v, ∃ r, Put exNeg k v = some r) ∧ (∀ k, ∃ r, Get exNeg k = some r) ∧
    (∀ k, ∃ r, Peek exNeg k = some r) ∧ (∀ k, ∃ r, Remove exNeg k = some r) ∧
    (∀ ops : List (Op Nat Nat), ∃ ss, trace exNeg ops = some ss ∧
      ss.length = ops.length) :=
  engine_total (-1) exNeg exNeg_reachable

/-- C18: structural invariant.  In every reachable state there is a duplicate-free
list `ps` of `Len()` addresses such that following `next` from `first` visits `ps`
in reverse and following `prev` from `last` visits `ps`, each walk ending at nil
(so the first walk ends at `last`, the second at `first`); `first` and `last` are
nil exactly when the cache is empty; the index has one entry per key, maps a key to
an address exactly when that address is in `ps` and carries that key, and distinct
addresses of `ps` carry distinct keys; and the links are doubly consistent. -/
theorem structural_invariant (C : Int) (s : LRUCache K V) (hreach : Reachable C s) :
    ∃ ps : List Nat,
      chase s.heap Item.next (Len s) s.first = some ps.reverse ∧
      chase s.heap Item.prev (Len s) s.last = some ps ∧
      ps.Nodup ∧ ps.length = Len s ∧ ps.head? = s.last ∧ ps.getLast? = s.first ∧
      (s.first = none ↔ Len s = 0) ∧ (s.last = none ↔ Len s = 0) ∧
      (s.items.map Prod.fst).Nodup ∧
      (∀ k p, mapLookup s.items k = some p ↔ p ∈ ps ∧ keyOf s.heap p = some k) ∧
      (∀ p ∈ ps, ∀ q ∈ ps, keyOf s.heap p = keyOf s.heap q → p = q) ∧
      (∀ e ∈ ps, ∃ it, s.heap e = some it ∧
        (∀ n, it.next = some n → n ∈ ps ∧ ∃ jt, s.heap n = some jt ∧ jt.prev = some e) ∧
        (∀ p, it.prev = some p → p ∈ ps ∧ ∃ jt, s.heap p = some jt ∧ jt.next = some e)) := by
  obtain ⟨es, hr, -⟩ := reach_rep hreach
  have hlen : Len s = es.length := hr.len
  refine ⟨es.map Cell.ptr, ?_, ?_, hr.ptrs, by rw [hlen, List.length_map], ?_, ?_, ?_, ?_,
    hr.items_keys.nodup_iff.2 hr.keys, hr.lookup_iff, ?_, fun e he => hr.links he⟩
  · rw [hlen, hr.first_eq]; exact chase_next_seg hr.seg
  · rw [hlen, hr.last_eq]; exact chase_prev_seg hr.seg
  · rw [hr.last_eq, headPtr_eq_head?]
  · rw [hr.first_eq, lastPtr_eq_getLast?]
  · rw [hlen, hr.first_eq, lastPtr_eq_getLast?]
    simp
  · rw [hlen, hr.last_eq, headPtr_eq_head?]
    cases es <;> simp
  · intro p hp q hq hpq
    obtain ⟨c, hc, rfl⟩ := List.mem_map.1 hp
    obtain ⟨d, hd, rfl⟩ := List.mem_map.1 hq
    rw [keyOf_mem hr.seg hc, keyOf_mem hr.seg hd] at hpq
    rw [List.inj_on_of_nodup_map hr.keys hc hd (Option.some.inj hpq)]

/-- C18 at capacity 3 holding keys 1, 2, 3. -/
theorem structural_invariant_witness :
    ∃ ps : List Nat,
      chase exThree.heap Item.next (Len exThree) exThree.first = some ps.reverse ∧
      chase exThree.heap Item.prev (Len exThree) exThree.last = some ps ∧
      ps.Nodup ∧ ps.length = Len exThree ∧ ps.head? = exThree.last ∧
      ps.getLast? = exThree.first ∧
      (exThree.first = none ↔ Len exThree = 0) ∧ (exThree.last = none ↔ Len exThree = 0) ∧
      (exThree.items.map Prod.fst).Nodup ∧
      (∀ k p, mapLookup exThree.items k = some p ↔
        p ∈ ps ∧ keyOf exThree.heap p = some k) ∧
      (∀ p ∈ ps, ∀ q ∈ ps, keyOf exThree.heap p = keyOf exThree.heap q → p = q) ∧
      (∀ e ∈ ps, ∃ it, exThree.heap e = some it ∧
        (∀ n, it.next = some n →
          n ∈ ps ∧ ∃ jt, exThree.heap n = some jt ∧ jt.prev = some e) ∧
        (∀ p, it.prev = some p →
          p ∈ ps ∧ ∃ jt, exThree.heap p = some jt ∧ jt.next = some e)) :=
  structural_invariant 3 exThree exThree_reachable

/-- C20, as stated, fails at capacity 2 holding keys 1 and 2: the `next` link of the
entry of key 2, the most recently used one, leads to the entry of key 1, which is
less recently used. -/
theorem link_direction_as_stated_fails : ¬ LinkDirection exFull Item.next Item.prev := by
  intro h
  have h1 := (h [1, 2] 1 2 1 { Key := 2, Val := 20, next := some 0, prev := none }
    (by decide) (by decide) (by decide) (by decide)).1 0 rfl
  revert h1
  decide

/-- C20, amended: in every reachable state, with the recency order of `Keys()`, the
`prev` link of an entry, when present, is its more recently used neighbour and the
`next` link, when present, is its less recently used neighbour. -/
theorem link_direction (C : Int) (s : LRUCache K V) (hreach : Reachable C s) :
    LinkDirection s Item.prev Item.next := by
  obtain ⟨es, hr, -⟩ := reach_rep hreach
  intro ks i k p it hks hk hp hit
  rw [hr.keys_eq] at hks
  cases hks
  rw [List.getElem?_map] at hk
  obtain ⟨c, hc, rfl⟩ := Option.map_eq_some'.1 hk
  have hcm : c ∈ es := List.getElem?_mem hc
  rw [hr.lookup_mem hcm] at hp
  cases hp
  rw [Seg_index hr.seg hc] at hit
  cases hit
  constructor
  · intro n hn
    simp only [Option.or_none] at hn
    obtain ⟨d, hd, rfl⟩ := Option.map_eq_some'.1 hn
    rw [List.getElem?_map, hd]
    exact hr.lookup_mem (List.getElem?_mem hd)
  · intro n hn
    by_cases hi : i = 0
    · simp [hi] at hn
    · simp only [hi, if_false] at hn
      obtain ⟨d, hd, rfl⟩ := Option.map_eq_some'.1 hn
      refine ⟨Nat.pos_of_ne_zero hi, ?_⟩
      rw [List.getElem?_map, hd]
      exact hr.lookup_mem (List.getElem?_mem hd)

/-- C20, amended, at capacity 2 holding keys 1 and 2. -/
theorem link_direction_witness : LinkDirection exFull Item.prev Item.next :=
  link_direction 2 exFull exFull_reachable

/-- C19: refinement to a list model.  For every capacity and every finite sequence of
`Put`, `Get`, `Peek`, `Contains` and `Remove` calls from `New`, the engine runs to
the end, and every return value (evicted and removed entries as key and value) and
the `Keys()`, `Values()` and `Len()` read after every call equal those of the list
model, whose key list stays duplicate-free. -/
theorem engine_refines_list_model (C : Int) (ops : List (Op K V)) :
    engineRun (New C) ops = some (modelRun (Model.New C) ops) ∧
      ∀ x ∈ modelRun (Model.New C : Model K V) ops, x.2.1.Nodup :=
  run_sim ops (New C) [] (Rep_New C)

end Claims

end lru

/-! ## The façade: lemmas and claims -/

namespace golru

set_option linter.unusedSectionVars false

section FacadeClaims

variable {K V E : Type} [DecidableEq K] [Inhabited V]

theorem New_ok (C : Int) (hC : 0 ≤ C) :
    (New [WithMaxEntries C] : Except String (LRUCache K V E))
      = .ok { lru := lru.New C, onEvicted := none } := by
  have : ¬ C < 0 := not_lt.2 hC
  simp [New, applyOptions, WithMaxEntries, this]

theorem New_eq_ok {options : List ConfigOption} {c : LRUCache K V E}
    (h : New options = .ok c) :
    ¬ (applyOptions options).MaxEntries < 0 ∧
      c = { lru := lru.New (applyOptions options).MaxEntries, onEvicted := none } := by
  unfold New at h
  by_cases hneg : (applyOptions options).MaxEntries < 0
  · simp [hneg] at h
  · simp only [hneg, if_false, Except.ok.injEq] at h
    exact ⟨hneg, h.symm⟩

theorem notify_none (c : LRUCache K V E) (h : lru.Heap K V) (ok : Bool) (e : Option Nat)
    (hc : c.onEvicted = none) : notify c h ok e = some [] := by
  simp [notify, hc]

theorem notify_false (c : LRUCache K V E) (h : lru.Heap K V) (e : Option Nat) :
    notify c h false e = some [] := by
  unfold notify
  cases c.onEvicted <;> simp

theorem notify_true (c : LRUCache K V E) (h : lru.Heap K V) (p : Nat) (it : lru.Item K V)
    (f : K → V → E) (hc : c.onEvicted = some f) (hp : h p = some it) :
    notify c h true (some p) = some [f it.Key it.Val] := by
  simp [notify, hc, hp]

theorem notify_total (c : LRUCache K V E) (h : lru.Heap K V) (ok : Bool) (e : Option Nat)
    (hv : ok = true → ∃ p it, e = some p ∧ h p = some it) :
    ∃ evs, notify c h ok e = some evs := by
  cases ok with
  | false => exact ⟨[], notify_false c h e⟩
  | true =>
    obtain ⟨p, it, rfl, hp⟩ := hv rfl
    cases hc : c.onEvicted with
    | none => exact ⟨[], notify_none c h true _ hc⟩
    | some f => exact ⟨_, notify_true c h p it f hc hp⟩

/-- The engine of a reachable façade state is a reachable engine state of a
non-negative capacity. -/
theorem engine_of_facade {c : LRUCache K V E} (h : Reachable c) :
    ∃ C : Int, 0 ≤ C ∧ lru.Reachable C c.lru := by
  induction h with
  | @new options c hnew =>
    obtain ⟨hneg, rfl⟩ := New_eq_ok hnew
    exact ⟨_, not_lt.1 hneg, lru.Reachable.init⟩
  | setOnEvicted f _ ih => exact ih
  | @put c c1 evs k v _ hput ih =>
    obtain ⟨C, hC, hr⟩ := ih
    simp only [Put, Option.bind_eq_bind, Option.bind_eq_some, Option.some.injEq,
      Prod.mk.injEq] at hput
    obtain ⟨r, hr1, evs1, -, rfl, -⟩ := hput
    exact ⟨C, hC, lru.Reachable.put k v hr (r := r.2) hr1⟩
  | @get c c1 r k _ hget ih =>
    obtain ⟨C, hC, hr⟩ := ih
    simp only [Get, Option.map_eq_some', Prod.mk.injEq] at hget
    obtain ⟨r1, hr1, rfl, -⟩ := hget
    exact ⟨C, hC, lru.Reachable.get k hr (r := r1.2) hr1⟩
  | @remove c c1 evs k _ hrem ih =>
    obtain ⟨C, hC, hr⟩ := ih
    simp only [Remove, Option.bind_eq_bind, Option.bind_eq_some, Option.some.injEq,
      Prod.mk.injEq] at hrem
    obtain ⟨r, hr1, evs1, -, rfl, -⟩ := hrem
    exact ⟨C, hC, lru.Reachable.remove k hr (r := r.2) hr1⟩

/-- Every reachable engine state of a non-negative capacity, with any callback slot,
is a reachable façade state. -/
theorem facade_of_engine {C : Int} {s : lru.LRUCache K V} (h : lru.Reachable C s)
    (hC : 0 ≤ C) (f : Option (K → V → E)) :
    Reachable ({ lru := s, onEvicted := f } : LRUCache K V E) := by
  induction h with
  | init =>
    exact Reachable.setOnEvicted f (Reachable.new [WithMaxEntries C] (New_ok C hC))
  | @put s s1 r k v hs hput ih =>
    obtain ⟨es, hr, -⟩ := lru.reach_rep hs
    obtain ⟨b, e⟩ := r
    have hv : b = true → ∃ p it, e = some p ∧ s1.heap p = some it := by
      intro hb
      rcases lru.Put_cases hr k v with ⟨t, ht⟩ | ⟨t, c, tl, it, -, -, ht, hit, -⟩
      · rw [ht] at hput; cases hput; cases hb
      · rw [ht] at hput; cases hput; exact ⟨_, it, rfl, hit⟩
    obtain ⟨evs, hevs⟩ := notify_total { lru := s, onEvicted := f } s1.heap b e hv
    have hp : Put ({ lru := s, onEvicted := f } : LRUCache K V E) k v
        = some ({ lru := s1, onEvicted := f }, evs) := by
      simp [Put, hput, hevs]
    exact Reachable.put k v ih hp
  | @get s s1 r k hs hget ih =>
    have hg : Get ({ lru := s, onEvicted := f } : LRUCache K V E) k
        = some ({ lru := s1, onEvicted := f }, r) := by
      simp [Get, hget]
    exact Reachable.get k ih hg
  | @remove s s1 r k hs hrem ih =>
    obtain ⟨es, hr, -⟩ := lru.reach_rep hs
    obtain ⟨b, e⟩ := r
    have hv : b = true → ∃ p it, e = some p ∧ s1.heap p = some it := by
      intro hb
      rcases lru.Remove_cases hr k with ⟨-, ht⟩ | ⟨t, c, it, -, -, ht, hit, -⟩
      · rw [ht] at hrem; cases hrem; cases hb
      · rw [ht] at hrem; cases hrem; exact ⟨_, it, rfl, hit⟩
    obtain ⟨evs, hevs⟩ := notify_total { lru := s, onEvicted := f } s1.heap b e hv
    have hp : Remove ({ lru := s, onEvicted := f } : LRUCache K V E) k
        = some ({ lru := s1, onEvicted := f }, evs) := by
      simp [Remove, hrem, hevs]
    exact Reachable.remove k ih hp

theorem exCache_reachable : Reachable exCache :=
  facade_of_engine lru.exFull_reachable (by decide) (some Prod.mk)

theorem exQuiet_reachable : Reachable exQuiet :=
  facade_of_engine lru.exFull_reachable (by decide) none

/-- C14: construction.  `New` fails exactly when `MaxEntries` after applying the
options in order is negative; with no options it is 0, and options built by
`WithMaxEntries` leave the value of the last one; a successful `New` returns an empty
cache with no callback whose engine is a new engine of the configured capacity. -/
theorem new_fails_iff_negative (options : List ConfigOption) :
    ((∃ msg, (New options : Except String (LRUCache K V E)) = .error msg) ↔
      (applyOptions options).MaxEntries < 0) ∧
    (applyOptions []).MaxEntries = 0 ∧
    (∀ ns : List Int, (applyOptions (ns.map WithMaxEntries)).MaxEntries = ns.getLast?.getD 0) ∧
    (∀ c : LRUCache K V E, New options = .ok c →
      c.lru = lru.New (applyOptions options).MaxEntries ∧
      c.lru.MaxEntries = (applyOptions options).MaxEntries ∧ 0 ≤ c.lru.MaxEntries ∧
      c.onEvicted = none ∧ Len c = 0 ∧ Keys c = some [] ∧ Values c = some []) := by
  refine ⟨?_, rfl, ?_, ?_⟩
  · unfold New
    by_cases hneg : (applyOptions options).MaxEntries < 0
    · simp [hneg]
    · simp [hneg]
  · intro ns
    induction ns using List.reverseRecOn with
    | nil => rfl
    | append_singleton l a _ =>
      simp [applyOptions, WithMaxEntries, List.foldl_append]
  · intro c hc
    obtain ⟨hneg, rfl⟩ := New_eq_ok hc
    exact ⟨rfl, rfl, not_lt.1 hneg, rfl, rfl, rfl, rfl⟩

/-- C14 with the options `WithMaxEntries(5), WithMaxEntries(2)`. -/
theorem new_fails_iff_negative_witness :
    ((∃ msg, (New [WithMaxEntries 5, WithMaxEntries 2] :
        Except String (LRUCache Nat Nat Unit)) = .error msg) ↔
      (applyOptions [WithMaxEntries 5, WithMaxEntries 2]).MaxEntries < 0) ∧
    (applyOptions []).MaxEntries = 0 ∧
    (∀ ns : List Int, (applyOptions (ns.map WithMaxEntries)).MaxEntries = ns.getLast?.getD 0) ∧
    (({ lru := lru.New 2, onEvicted := none } : LRUCache Nat Nat Unit).lru
        = lru.New (applyOptions [WithMaxEntries 5, WithMaxEntries 2]).MaxEntries ∧
      ({ lru := lru.New 2, onEvicted := none } : LRUCache Nat Nat Unit).lru.MaxEntries
        = (applyOptions [WithMaxEntries 5, WithMaxEntries 2]).MaxEntries ∧
      0 ≤ ({ lru := lru.New 2, onEvicted := none } : LRUCache Nat Nat Unit).lru.MaxEntries ∧
      ({ lru := lru.New 2, onEvicted := none } : LRUCache Nat Nat Unit).onEvicted = none ∧
      Len ({ lru := lru.New 2, onEvicted := none } : LRUCache Nat Nat Unit) = 0 ∧
      Keys ({ lru := lru.New 2, onEvicted := none } : LRUCache Nat Nat Unit) = some [] ∧
      Values ({ lru := lru.New 2, onEvicted := none } : LRUCache Nat Nat Unit) = some []) :=
  ⟨(new_fails_iff_negative [WithMaxEntries 5, WithMaxEntries 2]).1,
    (new_fails_iff_negative (K := Nat) (V := Nat) (E := Unit)
      [WithMaxEntries 5, WithMaxEntries 2]).2.1,
    (new_fails_iff_negative (K := Nat) (V := Nat) (E := Unit)
      [WithMaxEntries 5, WithMaxEntries 2]).2.2.1,
    (new_fails_iff_negative [WithMaxEntries 5, WithMaxEntries 2]).2.2.2 _ rfl⟩

/-- C15: eviction callback.  In a reachable façade state, `Put(k, v)` returns the
cache with the engine after the engine `Put`, whatever the callback slot holds; with
a callback `f` registered it invokes `f` exactly once, on the key and value at the
head of `Keys()`/`Values()` before the call, if the engine `Put` evicted, and not at
all otherwise (never when `k` was present); `Remove(k)` invokes `f` exactly once, on
`k` and the value stored under it, if `k` was present and not at all if it was
absent; with no callback registered neither call invokes anything. -/
theorem callback_on_eviction (c : LRUCache K V E) (hreach : Reachable c) (k : K) (v : V) :
    (∃ s1 b e, lru.Put c.lru k v = some (s1, b, e) ∧
      (lru.Contains c.lru k = true → b = false) ∧
      (∀ g, (Put (SetOnEvicted c g) k v).map (fun r => r.1.lru) = some s1) ∧
      ∃ evs, Put c k v = some ({ c with lru := s1 }, evs) ∧
        (c.onEvicted = none → evs = []) ∧
        ∀ f, c.onEvicted = some f →
          (b = false → evs = []) ∧
          (b = true → ∃ ks vs ek ev, lru.Keys c.lru = some ks ∧
            lru.Values c.lru = some vs ∧ ks.head? = some ek ∧ vs.head? = some ev ∧
            evs = [f ek ev])) ∧
    (∃ s1 b e, lru.Remove c.lru k = some (s1, b, e) ∧
      (∀ g, (Remove (SetOnEvicted c g) k).map (fun r => r.1.lru) = some s1) ∧
      ∃ evs, Remove c k = some ({ c with lru := s1 }, evs) ∧
        (c.onEvicted = none → evs = []) ∧
        ∀ f, c.onEvicted = some f →
          (lru.Contains c.lru k = false → evs = []) ∧
          (∀ v0, lru.Peek c.lru k = some (v0, true) → evs = [f k v0])) := by
  obtain ⟨C, -, hr0⟩ := engine_of_facade hreach
  obtain ⟨es, hr, -⟩ := lru.reach_rep hr0
  constructor
  · rcases lru.Put_cases hr k v with ⟨s1, e1⟩ | ⟨s1, a, tl, it, rfl, hk, e1, hit, hK, hV⟩
    · refine ⟨s1, false, none, e1, fun _ => rfl, fun g => ?_, [], ?_, fun _ => rfl,
        fun f _ => ⟨fun _ => rfl, (by intro h; cases h)⟩⟩
      · simp [Put, SetOnEvicted, e1, notify_false]
      · simp [Put, e1, notify_false]
    · have hnc : lru.Contains c.lru k = true → true = false := fun h =>
        absurd ((hr.contains_iff k).1 h) hk
      cases hc : c.onEvicted with
      | none =>
        refine ⟨s1, true, some a.ptr, e1, hnc, fun g => ?_, [], ?_, fun _ => rfl,
          (by intro f hf; cases hf)⟩
        · obtain ⟨evs, hevs⟩ := notify_total (SetOnEvicted c g) s1.heap true (some a.ptr)
            fun _ => ⟨_, it, rfl, hit⟩
          simp [Put, SetOnEvicted, e1] at hevs ⊢
          simp [hevs]
        · simp [Put, e1, notify_none c _ _ _ hc, hc]
      | some f =>
        refine ⟨s1, true, some a.ptr, e1, hnc, fun g => ?_, [f a.key a.val], ?_,
          (by intro h; cases h), fun f1 hf1 => ⟨(by intro h; cases h), fun _ => ?_⟩⟩
        · obtain ⟨evs, hevs⟩ := notify_total (SetOnEvicted c g) s1.heap true (some a.ptr)
            fun _ => ⟨_, it, rfl, hit⟩
          simp [Put, SetOnEvicted, e1] at hevs ⊢
          simp [hevs]
        · simp [Put, e1, notify_true c _ _ it f hc hit, hK, hV, hc]
        · cases hf1
          exact ⟨_, _, a.key, a.val, hr.keys_eq, hr.values_eq, rfl, rfl, rfl⟩
  · rcases lru.Remove_cases hr k with ⟨hk, e1⟩ | ⟨s1, a, it, ha, rfl, e1, hit, hK, hV⟩
    · refine ⟨c.lru, false, none, e1, fun g => ?_, [], ?_, fun _ => rfl,
        fun f _ => ⟨fun _ => rfl, fun v0 hp => ?_⟩⟩
      · simp [Remove, SetOnEvicted, e1, notify_false]
      · simp [Remove, e1, notify_false]
      · rw [hr.peek_none hk] at hp
        simp at hp
    · have hpeek : ∀ v0, lru.Peek c.lru a.key = some (v0, true) → v0 = a.val := by
        intro v0 hp
        rw [hr.peek_mem ha] at hp
        simp at hp
        exact hp.symm
      have hcont : lru.Contains c.lru a.key = true :=
        (hr.contains_iff _).2 (List.mem_map_of_mem lru.Cell.key ha)
      cases hc : c.onEvicted with
      | none =>
        refine ⟨s1, true, some a.ptr, e1, fun g => ?_, [], ?_, fun _ => rfl,
          (by intro f hf; cases hf)⟩
        · obtain ⟨evs, hevs⟩ := notify_total (SetOnEvicted c g) s1.heap true (some a.ptr)
            fun _ => ⟨_, it, rfl, hit⟩
          simp [Remove, SetOnEvicted, e1] at hevs ⊢
          simp [hevs]
        · simp [Remove, e1, notify_none c _ _ _ hc, hc]
      | some f =>
        refine ⟨s1, true, some a.ptr, e1, fun g => ?_, [f a.key a.val], ?_,
          (by intro h; cases h), fun f1 hf1 => ⟨fun h => ?_, fun v0 hp => ?_⟩⟩
        · obtain ⟨evs, hevs⟩ := notify_total (SetOnEvicted c g) s1.heap true (some a.ptr)
            fun _ => ⟨_, it, rfl, hit⟩
          simp [Remove, SetOnEvicted, e1] at hevs ⊢
          simp [hevs]
        · simp [Remove, e1, notify_true c _ _ it f hc hit, hK, hV, hc]
        · rw [hcont] at h
          cases h
        · cases hf1
          rw [hpeek v0 hp]

/-- C15 at capacity 2 holding keys 1 and 2 with a callback that reports its
arguments: `Put(3, 30)` evicts and reports `(1, 10)`; `Remove(1)` reports `(1, 10)`. -/
theorem callback_on_eviction_witness :
    (∃ s1 b e, lru.Put exCache.lru 3 30 = some (s1, b, e) ∧
      (lru.Contains exCache.lru 3 = true → b = false) ∧
      (∀ g, (Put (SetOnEvicted exCache g) 3 30).map (fun r => r.1.lru) = some s1) ∧
      ∃ evs, Put exCache 3 30 = some ({ exCache with lru := s1 }, evs) ∧
        (exCache.onEvicted = none → evs = []) ∧
        ∀ f, exCache.onEvicted = some f →
          (b = false → evs = []) ∧
          (b = true → ∃ ks vs ek ev, lru.Keys exCache.lru = some ks ∧
            lru.Values exCache.lru = some vs ∧ ks.head? = some ek ∧ vs.head? = some ev ∧
            evs = [f ek ev])) ∧
    (∃ s1 b e, lru.Remove exCache.lru 1 = some (s1, b, e) ∧
      (∀ g, (Remove (SetOnEvicted exCache g) 1).map (fun r => r.1.lru) = some s1) ∧
      ∃ evs, Remove exCache 1 = some ({ exCache with lru := s1 }, evs) ∧
        (exCache.onEvicted = none → evs = []) ∧
        ∀ f, exCache.onEvicted = some f →
          (lru.Contains exCache.lru 1 = false → evs = []) ∧
          (∀ v0, lru.Peek exCache.lru 1 = some (v0, true) → evs = [f 1 v0])) ∧
    (Put exCache 3 30).map Prod.snd = some [(1, 10)] ∧
    (Put exCache 1 11).map Prod.snd = some [] ∧
    (Remove exCache 1).map Prod.snd = some [(1, 10)] ∧
    (Remove exCache 9).map Prod.snd = some [] ∧
    (Put exQuiet 3 30).map Prod.snd = some [] ∧
    (Remove exQuiet 1).map Prod.snd = some [] :=
  ⟨(callback_on_eviction exCache exCache_reachable 3 30).1,
    (callback_on_eviction exCache exCache_reachable 1 30).2,
    by decide, by decide, by decide, by decide, by decide, by decide⟩

end FacadeClaims

end golru

namespace golru

set_option linter.unusedSectionVars false

section LockingClaims

variable {K V : Type} [DecidableEq K] [Inhabited V]

theorem sequential_concat (s : lru.LRUCache K V) (cs : List (Call K V)) (c : Call K V) :
    sequential s (cs ++ [c])
      = (sequential s cs).bind fun r => (c.run r.1).map fun r1 => (r1.1, r.2 ++ [r1.2]) := by
  induction cs generalizing s with
  | nil =>
    simp only [List.nil_append, sequential, Option.bind_eq_bind, Option.some_bind]
    cases c.run s <;> simp
  | cons a cs ih =>
    rw [List.cons_append]
    simp only [sequential, Option.bind_eq_bind]
    cases ha : a.run s with
    | none => rfl
    | some r =>
      simp only [Option.some_bind]
      rw [ih r.1]
      cases sequential r.1 cs with
      | none => rfl
      | some q =>
        simp only [Option.some_bind]
        cases c.run q.1 <;> rfl

theorem run_read_keeps {c : Call K V} {s : lru.LRUCache K V}
    {r : lru.LRUCache K V × Ret K V} (hl : c.lock = .read) (hr : c.run s = some r) :
    r.1 = s := by
  cases c with
  | contains k => simp only [Call.run, Option.some.injEq] at hr; rw [← hr]
  | keys =>
    simp only [Call.run, Option.map_eq_some'] at hr
    obtain ⟨_, -, rfl⟩ := hr
    rfl
  | len => simp only [Call.run, Option.some.injEq] at hr; rw [← hr]
  | peek k =>
    simp only [Call.run, Option.map_eq_some'] at hr
    obtain ⟨_, -, rfl⟩ := hr
    rfl
  | values =>
    simp only [Call.run, Option.map_eq_some'] at hr
    obtain ⟨_, -, rfl⟩ := hr
    rfl
  | get k => cases hl
  | put k v => cases hl
  | remove k => cases hl

/-- One event keeps: the calls done so far, run one after the other, give the engine
state in memory and the results returned; every thread inside found on entry the
state now in memory; a thread inside with the write lock is alone inside. -/
theorem step_keeps (s0 : lru.LRUCache K V) {σ σ1 : System K V} {e : Event K V}
    (hstep : σ.step e = some σ1)
    (h1 : sequential s0 (σ.done.map Prod.fst) = some (σ.engine, σ.done.map Prod.snd))
    (h2 : ∀ x ∈ σ.inside, x.entry = σ.engine)
    (h3 : ∀ x ∈ σ.inside, x.call.lock = .write → σ.inside = [x]) :
    sequential s0 (σ1.done.map Prod.fst) = some (σ1.engine, σ1.done.map Prod.snd) ∧
      (∀ x ∈ σ1.inside, x.entry = σ1.engine) ∧
      (∀ x ∈ σ1.inside, x.call.lock = .write → σ1.inside = [x]) := by
  cases e with
  | enter t c =>
    simp only [System.step] at hstep
    split at hstep
    · rename_i hcond
      cases hstep
      obtain ⟨-, hadm⟩ := hcond
      refine ⟨h1, ?_, ?_⟩
      · intro x hx
        rcases List.mem_cons.1 hx with rfl | hx
        · rfl
        · exact h2 x hx
      · intro x hx hw
        cases hc : c.lock with
        | read =>
          rw [hc] at hadm
          simp only [admits, List.all_eq_true, decide_eq_true_eq] at hadm
          rcases List.mem_cons.1 hx with rfl | hx
          · rw [hc] at hw; cases hw
          · rw [hadm x hx] at hw; cases hw
        | write =>
          rw [hc] at hadm
          simp only [admits, List.isEmpty_iff] at hadm
          rw [hadm] at hx ⊢
          simp only [List.mem_singleton] at hx
          rw [hx]
    · cases hstep
  | leave t =>
    simp only [System.step] at hstep
    split at hstep
    · cases hstep
    · rename_i x hfind
      have hxin : x ∈ σ.inside := List.mem_of_find?_eq_some hfind
      have hxt : x.thread = t := by simpa using List.find?_some hfind
      simp only [Option.bind_eq_bind, Option.bind_eq_some, Option.some.injEq] at hstep
      obtain ⟨r, hrun, rfl⟩ := hstep
      rw [h2 x hxin] at hrun
      refine ⟨?_, ?_, ?_⟩
      · simp only [List.map_append, List.map_cons, List.map_nil]
        rw [sequential_concat, h1]
        simp [hrun]
      · intro y hy
        have hyin : y ∈ σ.inside := (List.mem_filter.1 hy).1
        have hyt : y.thread ≠ t := by simpa using (List.mem_filter.1 hy).2
        cases hl : x.call.lock with
        | read =>
          show y.entry = r.1
          rw [run_read_keeps hl hrun]
          exact h2 y hyin
        | write =>
          have := h3 x hxin hl
          rw [this] at hyin
          simp only [List.mem_singleton] at hyin
          rw [hyin] at hyt
          exact absurd hxt hyt
      · intro y hy hw
        have hyin : y ∈ σ.inside := (List.mem_filter.1 hy).1
        have hyt : y.thread ≠ t := by simpa using (List.mem_filter.1 hy).2
        have := h3 y hyin hw
        rw [this] at hxin
        simp only [List.mem_singleton] at hxin
        rw [hxin] at hxt
        exact absurd hxt hyt

theorem exec_keeps (s0 : lru.LRUCache K V) (evs : List (Event K V)) :
    ∀ σ σ1 : System K V, σ.exec evs = some σ1 →
      sequential s0 (σ.done.map Prod.fst) = some (σ.engine, σ.done.map Prod.snd) →
      (∀ x ∈ σ.inside, x.entry = σ.engine) →
      (∀ x ∈ σ.inside, x.call.lock = .write → σ.inside = [x]) →
      sequential s0 (σ1.done.map Prod.fst) = some (σ1.engine, σ1.done.map Prod.snd) ∧
        (∀ x ∈ σ1.inside, x.entry = σ1.engine) ∧
        (∀ x ∈ σ1.inside, x.call.lock = .write → σ1.inside = [x]) := by
  induction evs with
  | nil =>
    intro σ σ1 h h1 h2 h3
    simp only [System.exec, Option.some.injEq] at h
    subst h
    exact ⟨h1, h2, h3⟩
  | cons e es ih =>
    intro σ σ1 h h1 h2 h3
    simp only [System.exec, Option.bind_eq_bind, Option.bind_eq_some] at h
    obtain ⟨σ2, hstep, hrest⟩ := h
    obtain ⟨k1, k2, k3⟩ := step_keeps s0 hstep h1 h2 h3
    exact ih σ2 σ1 hrest k1 k2 k3

theorem exSystem_eq : (System.init lru.exFull).exec exSchedule = some exSystem := by
  have h : ((System.init lru.exFull).exec exSchedule).isSome = true := by decide
  obtain ⟨σ, hσ⟩ := Option.isSome_iff_exists.1 h
  simp [exSystem, hσ]

/-- C17, as stated, fails: `Get` is not wrapped in the shared/read lock, it takes the
exclusive/write lock. -/
theorem get_read_lock_as_stated_fails : (Call.get 1 : Call Nat Nat).lock ≠ LockMode.read := by
  decide

/-- C17, amended: the façade wraps `Contains`, `Keys`, `Len`, `Peek` and `Values` in the
read lock and `Get`, `Put` and `Remove` in the write lock; a call under the read lock
leaves the engine as it is; and in every state a schedule of lock acquisitions and
releases leads to from a system with nobody inside, a thread inside with the write
lock is alone inside, every thread inside still finds in memory the engine state it
found on entry, and the calls done, run one after the other on the engine in the
order in which they left their critical sections, give the engine state in memory
and the results the calls returned. -/
theorem facade_calls_serialise (s0 : lru.LRUCache K V) (evs : List (Event K V))
    (σ : System K V) (h : (System.init s0).exec evs = some σ) :
    (∀ (k : K) (v : V),
      (Call.contains k : Call K V).lock = .read ∧ (Call.keys : Call K V).lock = .read ∧
      (Call.len : Call K V).lock = .read ∧ (Call.peek k : Call K V).lock = .read ∧
      (Call.values : Call K V).lock = .read ∧ (Call.get k : Call K V).lock = .write ∧
      (Call.put k v : Call K V).lock = .write ∧ (Call.remove k : Call K V).lock = .write) ∧
    (∀ (c : Call K V) (s : lru.LRUCache K V) (r : lru.LRUCache K V × Ret K V),
      c.lock = .read → c.run s = some r → r.1 = s) ∧
    (∀ x ∈ σ.inside, x.call.lock = .write → σ.inside = [x]) ∧
    (∀ x ∈ σ.inside, x.entry = σ.engine) ∧
    sequential s0 (σ.done.map Prod.fst) = some (σ.engine, σ.done.map Prod.snd) := by
  obtain ⟨k1, k2, k3⟩ := exec_keeps s0 evs (System.init s0) σ h rfl
    (fun _ hx => nomatch hx) (fun _ hx => nomatch hx)
  exact ⟨fun _ _ => ⟨rfl, rfl, rfl, rfl, rfl, rfl, rfl, rfl⟩,
    fun c s r hl hr => run_read_keeps hl hr, k3, k2, k1⟩

/-- C17, amended, on the schedule `exSchedule` from capacity 2 holding keys 1 and 2:
six calls are done, nobody is left inside, and the cache ends holding keys 1 and 3. -/
theorem facade_calls_serialise_witness :
    ((∀ (k : Nat) (v : Nat),
      (Call.contains k : Call Nat Nat).lock = .read ∧ (Call.keys : Call Nat Nat).lock = .read ∧
      (Call.len : Call Nat Nat).lock = .read ∧ (Call.peek k : Call Nat Nat).lock = .read ∧
      (Call.values : Call Nat Nat).lock = .read ∧ (Call.get k : Call Nat Nat).lock = .write ∧
      (Call.put k v : Call Nat Nat).lock = .write ∧
      (Call.remove k : Call Nat Nat).lock = .write) ∧
    (∀ (c : Call Nat Nat) (s : lru.LRUCache Nat Nat) (r : lru.LRUCache Nat Nat × Ret Nat Nat),
      c.lock = .read → c.run s = some r → r.1 = s) ∧
    (∀ x ∈ exSystem.inside, x.call.lock = .write → exSystem.inside = [x]) ∧
    (∀ x ∈ exSystem.inside, x.entry = exSystem.engine) ∧
    sequential lru.exFull (exSystem.done.map Prod.fst)
      = some (exSystem.engine, exSystem.done.map Prod.snd)) ∧
    exSystem.done.length = 6 ∧ exSystem.inside.length = 0 ∧
    lru.Keys exSystem.engine = some [1, 3] :=
  ⟨facade_calls_serialise lru.exFull exSchedule exSystem exSystem_eq,
    by decide, by decide, by decide⟩

end LockingClaims

end golru
